import Mathlib

/-!
# Verification of the tk-multi-publish2 publish orchestration engine

This file gives a shallow embedding, in Lean, of the core orchestration logic
of the publish pipeline:

* the task-processing loop of `PublishManager` (`_process_tasks`, `validate`,
  `publish`, `finalize`) from `src/python/tk_multi_publish2/api/manager.py`;
* the collection logic (`collect_files`, `collect_session`,
  `_path_already_collected`) from the same file — the `PublishTree` /
  `PublishItem` container it manipulates is not part of the source tree, so
  those pieces are modelled from the specification;
* the settings deep-copy discipline of
  `src/python/tk_multi_publish2/processing/plugin.py` (`init_task_settings`)
  and `src/python/tk_multi_publish2/processing/setting.py` (`SettingsCache`);
* the error-isolation wrappers (`run_accept`, `run_validate`, `run_publish`,
  `run_finalize`, `run_process_file`, `run_process_current_session`);
* the `undo` rollback hook of `src/hooks/basic/publish.py`;
* the composite `PluginSetting` containers of
  `src/python/tk_multi_publish2/api/plugins/setting.py`.

Python exceptions are modelled as string-valued identifiers; fallible Python
code becomes `Except`; the unbounded `while` loop of `_process_tasks` takes an
explicit fuel argument.
-/

deriving instance DecidableEq for Except

namespace Publish2

/-- A Python exception, identified by an opaque payload. -/
abbrev PyExc := String

/-! ## Task behaviours

`PublishTask` lives in `api/tree.py`, which is not part of the source tree.
For the manager's phase loops a task is fully described by what its
`validate()` / `publish()` / `finalize()` calls do.

Modelled from the spec: the publish-plugin hook contract (§6) declares
`validate(task_settings, item) -> bool` (may raise),
`publish(task_settings, item) -> None` (raises on failure) and
`finalize(task_settings, item) -> None`; `PublishTask.validate/publish/finalize`
forward to those hook methods. -/
structure PublishTaskB where
  tid : Nat
  vres : Except PyExc Bool
  pres : Except PyExc Unit
  fres : Except PyExc Unit
deriving Repr, DecidableEq

/-- The Python value that `_process_tasks` sends back into the task generator
via `task_generator.send(return_value)`: either the `(is_valid, error)` pair
built by `validate`'s `task_cb`, or the Python `None` returned by
`task.publish()` / `task.finalize()`. -/
inductive SentValue where
  | pair (ok : Bool) (err : Option PyExc)
  | pynone
deriving Repr, DecidableEq

/-- Whether a value sent into the generator is a `(success, error)` pair. -/
def SentValue.isPair : SentValue → Bool
  | .pair _ _ => true
  | .pynone => false

/-- A task generator, as consumed by `PublishManager._process_tasks`.  The
generator is driven by the `next()`/`send()` protocol: its next yield may
depend on every value sent into it so far.  We model it as a function from
the list of values sent so far (oldest first) to the next yielded task
(`none` models `StopIteration`). -/
abbrev TaskGen := List SentValue → Option PublishTaskB

/-- A generator that simply yields the tasks of a fixed list in order,
ignoring the values sent into it — the shape of the default
`PublishManager._task_generator` and of the documentation's example
generators. -/
def listGen (ts : List PublishTaskB) : TaskGen :=
  fun sent => ts.get? sent.length

/-- Observable log of one `_process_tasks` run: which tasks had their callback
invoked (in order), and which values were sent back into the generator. -/
structure RunLog where
  invoked : List PublishTaskB
  sent : List SentValue
deriving Repr, DecidableEq

/-- Outcome of `_process_tasks`: normal return, an exception propagating out
of the task callback, or fuel exhaustion (an artifact of embedding the
unbounded `while` loop). -/
inductive RunOutcome (σ : Type) where
  | ok (s : σ) (log : RunLog)
  | raised (e : PyExc) (log : RunLog)
  | outOfFuel (log : RunLog)
deriving Repr, DecidableEq

namespace RunOutcome

/-- The log recorded by a run, regardless of outcome. -/
def log {σ : Type} : RunOutcome σ → RunLog
  | .ok _ l => l
  | .raised _ l => l
  | .outOfFuel l => l

end RunOutcome

/-- The body of `PublishManager._process_tasks`'s `while task:` loop.
`task_cb` may raise (publish/finalize) or update the loop-carried state
(validate's `failed_to_validate` list); its result is sent back into the
generator, whose answer is the next task. -/
def processTasksGo (gen : TaskGen) (cb : σ → PublishTaskB → Except PyExc (SentValue × σ)) :
    Nat → σ → List PublishTaskB → List SentValue → PublishTaskB → RunOutcome σ
  | 0, _, invoked, sent, _ => .outOfFuel ⟨invoked, sent⟩
  | fuel + 1, s, invoked, sent, task =>
    match cb s task with
    | .error e => .raised e ⟨invoked ++ [task], sent⟩
    | .ok (rv, s') =>
      match gen (sent ++ [rv]) with
      | none => .ok s' ⟨invoked ++ [task], sent ++ [rv]⟩
      | some task' =>
        processTasksGo gen cb fuel s' (invoked ++ [task]) (sent ++ [rv]) task'

/-- `PublishManager._process_tasks`: prime the generator with `next()`, then
loop, invoking the callback on each task and forwarding its return value via
`send()`. -/
def processTasks (gen : TaskGen) (cb : σ → PublishTaskB → Except PyExc (SentValue × σ))
    (fuel : Nat) (s0 : σ) : RunOutcome σ :=
  match gen [] with
  | none => .ok s0 ⟨[], []⟩
  | some task => processTasksGo gen cb fuel s0 [] [] task

/-- The value of a processed task that `validate` sends to the generator:
the `(is_valid, error)` pair computed by its `task_cb`. -/
def sentOf (t : PublishTaskB) : SentValue :=
  match t.vres with
  | .error e => .pair false (some e)
  | .ok b => .pair b none

/-- The entry a task contributes to the `failed_to_validate` list:
`(task, exception)` when its validate raised, `(task, None)` when it returned
a falsy status, nothing when it validated. -/
def failEntry (t : PublishTaskB) : Option (PublishTaskB × Option PyExc) :=
  match t.vres with
  | .error e => some (t, some e)
  | .ok false => some (t, none)
  | .ok true => none

/-- The `failed_to_validate` list produced by sweeping a list of tasks. -/
def failedOf (ts : List PublishTaskB) : List (PublishTaskB × Option PyExc) :=
  ts.filterMap failEntry

/-- The `task_cb` closed over by `PublishManager.validate`: run the validate
of the task, catch any exception, record failing tasks in
`failed_to_validate`, and return the `(is_valid, error)` pair. -/
def validateCb (failed : List (PublishTaskB × Option PyExc)) (task : PublishTaskB) :
    Except PyExc (SentValue × List (PublishTaskB × Option PyExc)) :=
  match task.vres with
  | .error e => .ok (.pair false (some e), failed ++ [(task, some e)])
  | .ok true => .ok (.pair true none, failed)
  | .ok false => .ok (.pair false none, failed ++ [(task, none)])

/-- Result of a full `PublishManager.validate` run: the returned
`failed_to_validate` list, the arguments of every `post_validate` call made on
the post-phase hook, and the run's log. -/
structure ValidateResult (τ : Type) where
  failed : List (PublishTaskB × Option PyExc)
  postValidateArgs : List τ
  log : RunLog
deriving Repr, DecidableEq

/-- `PublishManager.validate`: process all tasks with `validateCb`, then call
`self._post_phase_hook.post_validate(self.tree)` once, and return the list of
failures.  `tree` stands for the manager's whole publish tree, handed to the
post-phase hook.  The validate callback never raises, so the `raised` outcome
is impossible; fuel exhaustion is reported as `none`. -/
def validateRun (tree : τ) (gen : TaskGen) (fuel : Nat) :
    Option (Except PyExc (ValidateResult τ)) :=
  match processTasks gen validateCb fuel [] with
  | .ok failed log => some (.ok ⟨failed, [tree], log⟩)
  | .raised e _ => some (.error e)
  | .outOfFuel _ => none

/-- Outcome of a `publish`/`finalize` run: normal completion, an exception
propagated to the caller (with the log of what ran before it), or fuel
exhaustion.  `postArgs` records every call made to the post-phase hook for
the run. -/
inductive ExecPhaseOutcome (τ : Type) where
  | ok (postArgs : List τ) (log : RunLog)
  | raised (e : PyExc) (postArgs : List τ) (log : RunLog)
  | outOfFuel (log : RunLog)
deriving Repr, DecidableEq

/-- The `task_cb` of `publish` and `finalize`: `lambda task: task.publish()`
(resp. `finalize`) — propagate any exception, otherwise send the Python
`None` the task method returned. -/
def phaseCb (resOf : PublishTaskB → Except PyExc Unit) :
    Unit → PublishTaskB → Except PyExc (SentValue × Unit) :=
  fun s task => (resOf task).map (fun _ => (SentValue.pynone, s))

/-- The common shape of `PublishManager.publish` and
`PublishManager.finalize`: `self._process_tasks(task_generator,
lambda task: task.publish())` followed by one post-phase hook call.  The
return value of the callback — the Python `None` returned by the task method
— is what gets sent back into the generator.  If the task method raises, the
exception propagates to the caller before the post-phase hook line is
reached, so `postArgs` is empty in the `raised` case. -/
def execPhaseRun (resOf : PublishTaskB → Except PyExc Unit) (tree : τ) (gen : TaskGen)
    (fuel : Nat) : ExecPhaseOutcome τ :=
  match processTasks gen (phaseCb resOf) fuel () with
  | .ok _ log => .ok [tree] log
  | .raised e log => .raised e [] log
  | .outOfFuel log => .outOfFuel log

/-- `PublishManager.publish`. -/
def publishRun (tree : τ) (gen : TaskGen) (fuel : Nat) : ExecPhaseOutcome τ :=
  execPhaseRun (fun t => t.pres) tree gen fuel

/-- `PublishManager.finalize`. -/
def finalizeRun (tree : τ) (gen : TaskGen) (fuel : Nat) : ExecPhaseOutcome τ :=
  execPhaseRun (fun t => t.fres) tree gen fuel

/-! ## The publish tree and collection

`PublishTree`/`PublishItem` live in `api/tree.py` and `api/item.py`, which
are not part of the source tree; the container is modelled from the
specification, while `collect_files`, `collect_session`,
`_path_already_collected` and `_attach_plugins` follow
`api/manager.py` line by line. -/

/-- The open key-value property bag of an item.  Our claims only ever store
string values (file paths), so values are strings. -/
abbrev Props := List (String × String)

/-- Python dict assignment `d[k] = v`: replace the binding if the key exists,
append it otherwise. -/
def propsPut (ps : Props) (k v : String) : Props :=
  if (ps.lookup k).isSome then
    ps.map (fun p => if p.1 = k then (k, v) else p)
  else
    ps ++ [(k, v)]

/-- Modelled from the spec: a `PublishItem` node (§3) — identity, one parent
link (`0` stands for the sentinel root item), the `persistent` flag, the
`properties` bag and the attached task list (task identities suffice for the
claims at hand). -/
structure PublishItemS where
  iid : Nat
  parentId : Nat
  persistent : Bool
  properties : Props
  tasks : List Nat
deriving Repr, DecidableEq

/-- Modelled from the spec: the `PublishTree` container (§3) — a flat view of
all items (the sentinel root item excluded) in traversal order, plus a fresh
identity source for newly created items. -/
structure PublishTreeS where
  items : List PublishItemS
  nextId : Nat
deriving Repr, DecidableEq

/-- Well-formedness of the modelled tree: item identities are positive (the
root is `0`), below the fresh-identity source, and unique. -/
def TreeWF (t : PublishTreeS) : Prop :=
  0 < t.nextId ∧ (∀ i ∈ t.items, 0 < i.iid ∧ i.iid < t.nextId)
    ∧ (t.items.map (fun i => i.iid)).Nodup

/-- `PublishManager.PROPERTY_KEY_COLLECTED_FILE_PATH`. -/
def PROPERTY_KEY_COLLECTED_FILE_PATH : String := "__collected_file_path__"

/-- Modelled from the spec: the `persistent_items` view of the tree (§3) —
the items flagged persistent (the manager only ever flags top-level items). -/
def persistentItems (t : PublishTreeS) : List PublishItemS :=
  t.items.filter (fun i => i.persistent)

/-- `PublishManager._path_already_collected`: scan the persistent items for
one whose collected-file-path property equals the supplied path. -/
def pathAlreadyCollected (t : PublishTreeS) (p : String) : Bool :=
  (persistentItems t).any
    (fun i => i.properties.lookup PROPERTY_KEY_COLLECTED_FILE_PATH == some p)

/-- Modelled from the spec: the collector hook contract (§6) — a collector
run creates new items, each parented either under the parent item handed to
the hook (the root item of the tree) or under an item created earlier in the
same run.  One `ItemSpec` describes one created item: its parent (`none` for
the root item, `some j` for the j-th item created earlier in this run) and
its initial properties. -/
structure ItemSpec where
  parentRef : Option Nat
  props : Props
deriving Repr, DecidableEq

/-- Create the items described by `specs` in order, threading the list of
identities created so far in this run so that later specs can parent under
earlier creations.  New items start out non-persistent, with no tasks. -/
def applySpecsGo : PublishTreeS → List Nat → List ItemSpec → PublishTreeS
  | t, _, [] => t
  | t, created, s :: ss =>
    let pid := match s.parentRef with
      | none => 0
      | some j => created.getD j 0
    applySpecsGo ⟨t.items ++ [⟨t.nextId, pid, false, s.props, []⟩], t.nextId + 1⟩
      (created ++ [t.nextId]) ss

/-- Run one collector invocation (`process_file` / `process_current_session`)
described by `specs` against the tree. -/
def applySpecs (t : PublishTreeS) (specs : List ItemSpec) : PublishTreeS :=
  applySpecsGo t [] specs

/-- The log line `collect_files` emits for a path: the skip message for an
already-collected path, or the collection message. -/
inductive CollectEvent where
  | skipPath (p : String)
  | collectPath (p : String)
deriving Repr, DecidableEq

/-- The marking `collect_files` applies to each newly collected item: only a
top-level item (child of the root item) is made persistent, and the path that
produced the item is stamped into its properties under
`PROPERTY_KEY_COLLECTED_FILE_PATH`. -/
def stampItem (p : String) (i : PublishItemS) : PublishItemS :=
  ⟨i.iid, i.parentId, if i.parentId = 0 then true else i.persistent,
    propsPut i.properties PROPERTY_KEY_COLLECTED_FILE_PATH p, i.tasks⟩

/-- `PublishManager._attach_plugins` on one item:
`item.refresh_tasks(item.context, self)`.  Modelled from the spec: recomputes
the full set of applicable tasks of the item from scratch, discarding and
replacing any previously attached ones (§4.1); the recomputation itself is a
model parameter `attach`. -/
def attachItem (attach : Nat → List Nat) (i : PublishItemS) : PublishItemS :=
  ⟨i.iid, i.parentId, i.persistent, i.properties, attach i.iid⟩

/-- The before/after snapshot diff of the collection code
(`list(set(items_after) - set(items_before))`), as the identities of the
items present after but not before. -/
def collectDiffIds (before after : List PublishItemS) : List Nat :=
  (after.filter (fun i => decide (i ∉ before))).map (fun i => i.iid)

/-- Apply an in-place mutation `f` to the items of the tree whose identity is
in `ids` (reference semantics: the collection code mutates the newly
discovered item objects, which live in the tree). -/
def markTree (f : PublishItemS → PublishItemS) (ids : List Nat)
    (t : PublishTreeS) : PublishTreeS :=
  ⟨t.items.map (fun i => if i.iid ∈ ids then f i else i), t.nextId⟩

/-- The per-path body of `PublishManager.collect_files`: snapshot the items,
skip already-collected paths (logged), otherwise run the collector hook;
diff the snapshots for new items, mark top-level new items persistent, stamp
the collected path onto every new item, attach plugins to the new items, and
return them. -/
def collectFilesOne (collector : String → List ItemSpec) (attach : Nat → List Nat)
    (t : PublishTreeS) (p : String) :
    PublishTreeS × List PublishItemS × List CollectEvent :=
  let skip := pathAlreadyCollected t p
  let t1 := if skip then t else applySpecs t (collector p)
  let evs := if skip then [CollectEvent.skipPath p] else [CollectEvent.collectPath p]
  let newIds := collectDiffIds t.items t1.items
  let t2 := markTree (fun i => attachItem attach (stampItem p i)) newIds t1
  (t2, t2.items.filter (fun i => i.iid ∈ newIds), evs)

/-- `PublishManager.collect_files`: process each path in order, accumulating
the newly created items and the log. -/
def collectFiles (collector : String → List ItemSpec) (attach : Nat → List Nat)
    (t : PublishTreeS) (paths : List String) :
    PublishTreeS × List PublishItemS × List CollectEvent :=
  paths.foldl
    (fun acc p =>
      let r := collectFilesOne collector attach acc.1 p
      (r.1, acc.2.1 ++ r.2.1, acc.2.2 ++ r.2.2))
    (t, [], [])

/-- Modelled from the spec: `PublishTree.clear(clear_persistent=False)`
"removes exactly the non-persistent subtrees, leaving persistent items and
their existing tasks/properties untouched" (§3).  An item survives iff it is
a persistent top-level item or its parent survives; items are stored with
parents before children, so one left-to-right pass collects the surviving
identities. -/
def keptIds (items : List PublishItemS) : List Nat :=
  items.foldl
    (fun acc i =>
      if (i.parentId == 0 && i.persistent) || acc.contains i.parentId then
        acc ++ [i.iid]
      else acc)
    []

/-- Modelled from the spec: `self.tree.clear(clear_persistent=False)` as
invoked by `collect_session`. -/
def clearNonPersistent (t : PublishTreeS) : PublishTreeS :=
  ⟨t.items.filter (fun i => i.iid ∈ keptIds t.items), t.nextId⟩

/-- `PublishManager.collect_session`: clear the non-persistent items, snapshot
the remaining (persistent) items, run the session collector, diff for new
items, attach plugins to just the new items and return them. -/
def collectSession (sessSpecs : List ItemSpec) (attach : Nat → List Nat)
    (t : PublishTreeS) : PublishTreeS × List PublishItemS :=
  let t0 := clearNonPersistent t
  let t1 := applySpecs t0 sessSpecs
  let newIds := collectDiffIds t0.items t1.items
  let t2 := markTree (attachItem attach) newIds t1
  (t2, t2.items.filter (fun i => i.iid ∈ newIds))

/-! ## Settings resolution and the settings cache

From `processing/setting.py` (`Setting`, `SettingsCache`) and
`processing/plugin.py` (`PluginBase.build_settings_dict`,
`PublishPlugin.init_task_settings`).  Python object identity matters here —
the whole point of the deep copies is which `Setting` objects are shared — so
`Setting` objects live in an explicit heap of cells addressed by allocation
order, and a settings dict maps setting names to cell addresses.  `deepcopy`
allocates fresh cells with the same values. -/

/-- The heap of `Setting` objects: the cell at address `a` holds the current
value of one `Setting` (values are strings, which suffices for the claims). -/
structure SHeap where
  cells : List String
deriving Repr, DecidableEq

namespace SHeap

/-- Number of allocated cells; also the next fresh address. -/
def size (h : SHeap) : Nat := h.cells.length

/-- Read the value of the `Setting` object at address `a`. -/
def read (h : SHeap) (a : Nat) : Option String := h.cells.get? a

/-- Mutate the `Setting` object at address `a` (e.g. assigning
`setting.value`). -/
def write (h : SHeap) (a : Nat) (v : String) : SHeap := ⟨h.cells.set a v⟩

/-- Allocate a fresh `Setting` object holding `v`. -/
def alloc (h : SHeap) (v : String) : SHeap × Nat := (⟨h.cells ++ [v]⟩, h.cells.length)

end SHeap

/-- A resolved settings dict: setting name → address of its `Setting`
object. -/
abbrev SettingsDict := List (String × Nat)

/-- `PluginBase.build_settings_dict`: for each schema entry create a fresh
`Setting` object and assign it the resolved raw value (`raw` is the resolved
settings the configuration resolver returned for the context, an external
collaborator). -/
def buildSettingsDict (h : SHeap) : List (String × String) → SHeap × SettingsDict
  | [] => (h, [])
  | (n, v) :: rest =>
    let ha := h.alloc v
    let hd := buildSettingsDict ha.1 rest
    (hd.1, (n, ha.2) :: hd.2)

/-- `copy.deepcopy` on a settings dict: fresh `Setting` objects carrying the
same values, leaving the originals untouched. -/
def deepcopyDict (h : SHeap) : SettingsDict → SHeap × SettingsDict
  | [] => (h, [])
  | (n, a) :: rest =>
    let ha := h.alloc ((h.read a).getD "")
    let hd := deepcopyDict ha.1 rest
    (hd.1, (n, ha.2) :: hd.2)

/-- The key of a `SettingsCache` entry: `(plugin, context)`. -/
abbrev CacheKey := String × String

/-- `SettingsCache`: plugin settings per `(plugin, context)` pair. -/
structure SettingsCacheS where
  entries : List (CacheKey × SettingsDict)
deriving Repr, DecidableEq

/-- `SettingsCache.get`. -/
def cacheGet (c : SettingsCacheS) (k : CacheKey) : Option SettingsDict :=
  c.entries.lookup k

/-- `SettingsCache.add`: `self._cache[(plugin, context)] =
copy.deepcopy(settings)` — the cache stores a deep copy. -/
def cacheAdd (h : SHeap) (c : SettingsCacheS) (k : CacheKey) (d : SettingsDict) :
    SHeap × SettingsCacheS :=
  let hd := deepcopyDict h d
  (hd.1, ⟨(k, hd.2) :: c.entries⟩)

/-- `PublishPlugin.init_task_settings`: take the cached settings for the
`(plugin, context)` pair (a falsy — missing or empty — cache entry triggers a
rebuild via `build_settings_dict` followed by `settings_cache.add`), then
deep-copy them before handing them to the task, "since other tasks may be
referencing the same settings".  The final pass through the hook method
`init_task_settings` is modelled as the identity, its default behaviour.
Returns the new heap, the new cache, and the per-task settings dict. -/
def initTaskSettings (raw : List (String × String)) (k : CacheKey)
    (h : SHeap) (c : SettingsCacheS) : SHeap × SettingsCacheS × SettingsDict :=
  let cached := (cacheGet c k).getD []
  if cached.isEmpty then
    let hd := buildSettingsDict h raw
    let hc := cacheAdd hd.1 c k hd.2
    let hd' := deepcopyDict hc.1 hd.2
    (hd'.1, hc.2, hd'.2)
  else
    let hd' := deepcopyDict h cached
    (hd'.1, c, hd'.2)

/-! ## The plugin-instance error funnel

From `processing/plugin.py` (`PublishPlugin.run_accept`, `run_validate`,
`run_publish`, `run_finalize`, `_handle_plugin_error`) and
`api/plugins/collector_instance.py` (`CollectorPluginInstance.run_process_file`,
`run_process_current_session`).  A hook method is an opaque computation that
either returns a value or raises. -/

/-- What a wrapper writes to the logger. -/
inductive LogEvent where
  | errorLogged (msg : String)
  | infoLogged (msg : String)
deriving Repr, DecidableEq

/-- `PublishPlugin.run_accept`: call the hook `accept`; on an exception, log
the traceback and return `{"accepted": False}` (a Python dict, modelled as a
key-value list). -/
def runAccept (hookAccept : Except PyExc (List (String × Bool))) :
    List (String × Bool) × List LogEvent :=
  match hookAccept with
  | .ok d => (d, [])
  | .error e => ([("accepted", false)], [.errorLogged e])

/-- `PublishPlugin.run_validate`: tasks linked to a site-level context (no
task on the item context) fail validation without the hook being called;
otherwise the hook `validate` runs inside `_handle_plugin_error`, which logs
any exception and re-raises it.  The trailing success/failure log line only
runs when no exception escaped. -/
def runValidate (ctxHasTask : Bool) (hookValidate : Except PyExc Bool) :
    Except PyExc Bool × List LogEvent :=
  if ctxHasTask then
    match hookValidate with
    | .error e => (.error e, [.errorLogged e])
    | .ok b =>
      (.ok b, [if b then .infoLogged "Validation successful!"
               else .errorLogged "Validation failed."])
  else
    (.ok false, [.errorLogged "Please link the item to an entity and task!",
                 .errorLogged "Validation failed."])

/-- `PublishPlugin.run_publish`: the hook `publish` runs inside
`_handle_plugin_error("Publish complete!", ...)`, which logs and re-raises
any exception. -/
def runPublish (hookPublish : Except PyExc Unit) : Except PyExc Unit × List LogEvent :=
  match hookPublish with
  | .error e => (.error e, [.errorLogged e])
  | .ok _ => (.ok (), [.infoLogged "Publish complete!"])

/-- `PublishPlugin.run_finalize`: as `run_publish`, with the finalize hook. -/
def runFinalize (hookFinalize : Except PyExc Unit) : Except PyExc Unit × List LogEvent :=
  match hookFinalize with
  | .error e => (.error e, [.errorLogged e])
  | .ok _ => (.ok (), [.infoLogged "Finalize complete!"])

/-- `CollectorPluginInstance.run_process_file`: call the hook `process_file`;
on an exception, log it and fall through, returning the Python `None`
(modelled as `Option.none`). -/
def runProcessFile (hookProcessFile : Except PyExc α) : Option α × List LogEvent :=
  match hookProcessFile with
  | .ok v => (some v, [])
  | .error e => (none, [.errorLogged e])

/-- `CollectorPluginInstance.run_process_current_session`: same funnel as
`run_process_file`. -/
def runProcessCurrentSession (hookProcess : Except PyExc α) : Option α × List LogEvent :=
  match hookProcess with
  | .ok v => (some v, [])
  | .error e => (none, [.errorLogged e])

/-! ## The undo rollback of the basic publish plugin

From `src/hooks/basic/publish.py`, `PublishFilesPlugin.undo`: delete the
published symlink (when set) and the publish path via `delete_files`, then
best-effort delete each registered `PublishedFile` entity, each wrapped in
its own try/except; finally pop the `sg_publish_data_list` property.  The
file-deletion behaviour and the tracking-database delete are external
side-effecting collaborators, passed in as behaviours. -/

/-- A `PublishedFile` record stashed in `sg_publish_data_list`. -/
structure PublishRec where
  dtype : String
  did : Nat
deriving Repr, DecidableEq

/-- `PublishFilesPlugin.undo`.  `deleteFilesB` models
`self.delete_files(task_settings, item, path)` (note: called with the raw
`publish_path` property even when it is Python `None`); `sgDeleteB` models
`self.sgtk.shotgun.delete(...)`.  Returns the log and whether the
`sg_publish_data_list` property was popped, or the exception that escaped
undo. -/
def undoRun (deleteFilesB : Option String → Except PyExc Unit)
    (sgDeleteB : PublishRec → Except PyExc Unit)
    (symlinkPath : Option String) (publishPath : Option String)
    (dataList : List PublishRec) : Except PyExc (List LogEvent × Bool) := do
  match symlinkPath with
  | some sp => deleteFilesB (some sp)
  | none => pure ()
  deleteFilesB publishPath
  if dataList.isEmpty then
    return ([LogEvent.infoLogged "Cleaning up copied files..."], false)
  else
    let evs := dataList.map (fun r =>
      match sgDeleteB r with
      | .ok _ => LogEvent.infoLogged "Cleaning up published file..."
      | .error _ => LogEvent.errorLogged "Failed to delete PublishedFile Entity")
    return (LogEvent.infoLogged "Cleaning up copied files..." :: evs, true)

/-! ## Composite plugin settings

From `api/plugins/setting.py`: `create_plugin_setting`, `PluginSetting`,
`ListPluginSetting`, `DictPluginSetting` and the `value` setter that rebuilds
children via `_process_children`. -/

/-- A Python value as stored in a plugin setting. -/
inductive PyVal where
  | vint (n : Int)
  | vstr (s : String)
  | vbool (b : Bool)
  | vlist (xs : List PyVal)
  | vdict (kvs : List (String × PyVal))
deriving Repr

/-!
Python `==` on values, as used by the `PluginSetting.value` setter gate
`if value != self._value`.  Dict values keep their insertion order in the
model, so dict comparison is keywise in that order.
-/
mutual

/-- Python `==` on two values. -/
def pyBeq : PyVal → PyVal → Bool
  | .vint a, .vint b => a == b
  | .vstr a, .vstr b => a == b
  | .vbool a, .vbool b => a == b
  | .vlist xs, .vlist ys => pyBeqL xs ys
  | .vdict xs, .vdict ys => pyBeqKV xs ys
  | _, _ => false

def pyBeqL : List PyVal → List PyVal → Bool
  | [], [] => true
  | x :: xs, y :: ys => pyBeq x y && pyBeqL xs ys
  | _, _ => false

def pyBeqKV : List (String × PyVal) → List (String × PyVal) → Bool
  | [], [] => true
  | (k, v) :: xs, (k2, v2) :: ys => k == k2 && pyBeq v v2 && pyBeqKV xs ys
  | _, _ => false

end

/-- A settings schema node: the declared `type`, the strict `items` map of a
dict schema, and the `values` template of a list or open dict schema. -/
inductive SchemaS where
  | mk (dtype : Option String) (items : Option (List (String × SchemaS)))
       (values : Option SchemaS)
deriving Repr

/-- The declared `type` of a schema node. -/
def SchemaS.dtype : SchemaS → Option String
  | .mk d _ _ => d

/-- The strict `items` map of a schema node. -/
def SchemaS.items : SchemaS → Option (List (String × SchemaS))
  | .mk _ i _ => i

/-- The `values` template of a schema node. -/
def SchemaS.values : SchemaS → Option SchemaS
  | .mk _ _ v => v

/-- The empty schema `{}` that `create_plugin_setting` substitutes for a
missing child schema. -/
def emptySchema : SchemaS := .mk none none none

/-- A Python error escaping `_process_children`. -/
inductive PyErr where
  | keyError (k : String)
  | typeError
  | fuelOut
deriving Repr, DecidableEq

/-- A `PluginSetting` object: its name, the schema it was built against, its
current value, and — for the composite `ListPluginSetting` /
`DictPluginSetting` subclasses — the child settings `_process_children`
built from the current value. -/
inductive PS where
  | plain (name : String) (schema : SchemaS) (value : PyVal)
  | plist (name : String) (schema : SchemaS) (value : PyVal) (children : List PS)
  | pdict (name : String) (schema : SchemaS) (value : PyVal)
          (children : List (String × PS))
deriving Repr

/-- Effectful map over a list, failing on the first error — the shape of the
child-building loops in `_process_children`, whose Python originals raise at
the first bad element. -/
def exceptMapM (f : α → Except ε β) : List α → Except ε (List β)
  | [] => .ok []
  | a :: as =>
    match f a with
    | .error e => .error e
    | .ok b =>
      match exceptMapM f as with
      | .error e => .error e
      | .ok bs => .ok (b :: bs)

/-- `create_plugin_setting(name, value, schema)` together with the
`_process_children` of the class it dispatches to.  A `list` schema wraps
each element of the value (child names `name[i]`); a `dict` schema with a
non-empty (truthy) `items` map is the strict shape, whose children are keyed
by the schema item keys and read out of the value by key (`KeyError` when
missing, child names `name["key"]`); any other `dict` schema is the open
shape, whose children mirror the keys of the value itself (child names
`name.key`); any other schema is a scalar `PluginSetting` with no children.
The recursion is fuelled; every actual call terminates because values are
finite. -/
def createPluginSetting : Nat → String → PyVal → SchemaS → Except PyErr PS
  | 0, _, _, _ => .error .fuelOut
  | fuel + 1, name, value, schema =>
    if schema.dtype = some "list" then
      match value with
      | .vlist xs =>
        (exceptMapM
          (fun iv =>
            createPluginSetting fuel (name ++ "[" ++ toString iv.1 ++ "]") iv.2
              (schema.values.getD emptySchema))
          xs.enum).map (fun cs => PS.plist name schema value cs)
      | _ => .error .typeError
    else if schema.dtype = some "dict" then
      let openBuild : Except PyErr PS :=
        match value with
        | .vdict kvs =>
          (exceptMapM
            (fun kv =>
              (createPluginSetting fuel (name ++ "." ++ kv.1) kv.2
                (schema.values.getD emptySchema)).map (fun c => (kv.1, c)))
            kvs).map (fun cs => PS.pdict name schema value cs)
        | _ => .error .typeError
      match schema.items with
      | some its =>
        if its.isEmpty then openBuild
        else
          match value with
          | .vdict kvs =>
            (exceptMapM
              (fun ks =>
                match kvs.lookup ks.1 with
                | some sv =>
                  (createPluginSetting fuel (name ++ "[\"" ++ ks.1 ++ "\"]") sv
                    ks.2).map (fun c => (ks.1, c))
                | none => .error (.keyError ks.1))
              its).map (fun cs => PS.pdict name schema value cs)
          | _ => .error .typeError
      | none => openBuild
    else
      .ok (.plain name schema value)

/-- The `value` setter of `PluginSetting`: `if value != self._value`, store
the new value and run `_process_children`, which for the composite classes
rebuilds every child wrapper from the stored schema and the new value. -/
def setSettingValue (fuel : Nat) (s : PS) (newVal : PyVal) : Except PyErr PS :=
  match s with
  | .plain name schema old =>
    if pyBeq newVal old then .ok (.plain name schema old)
    else .ok (.plain name schema newVal)
  | .plist name schema old cs =>
    if pyBeq newVal old then .ok (.plist name schema old cs)
    else createPluginSetting fuel name newVal schema
  | .pdict name schema old cs =>
    if pyBeq newVal old then .ok (.pdict name schema old cs)
    else createPluginSetting fuel name newVal schema

/-- The children of a dict setting, as a key-value list (`DictPluginSetting`
iteration). -/
def PS.dictChildren : PS → List (String × PS)
  | .pdict _ _ _ cs => cs
  | _ => []

/-- The keys a dict setting exposes (`__iter__`). -/
def PS.dictKeys (s : PS) : List String := s.dictChildren.map (fun p => p.1)

/-- Key lookup on a dict setting (`__getitem__`, `None` for a missing
key). -/
def PS.getItem (s : PS) (k : String) : Option PS := s.dictChildren.lookup k

/-- `len` of a dict setting (`__len__`). -/
def PS.dictLen (s : PS) : Nat := s.dictChildren.length

/-- The keys of a Python dict value. -/
def PyVal.dictKeys : PyVal → List String
  | .vdict kvs => kvs.map (fun p => p.1)
  | _ => []

/-- The addresses (object identities) of the `Setting` objects of a
settings dict. -/
def addrsOf (d : SettingsDict) : List Nat := d.map (fun p => p.2)

/-- Two successive per-task settings resolutions for the same plugin and
context (`init_task_settings` run for two tasks), starting from an empty
settings cache: the final heap, the two per-task dicts, and the cached
baseline dict. -/
def twoTaskSettings (raw : List (String × String)) (k : CacheKey) (h0 : SHeap) :
    SHeap × SettingsDict × SettingsDict × SettingsDict :=
  let r1 := initTaskSettings raw k h0 ⟨[]⟩
  let r2 := initTaskSettings raw k r1.1 r1.2.1
  (r2.1, r1.2.2, r2.2.2, (cacheGet r2.2.1 k).getD [])

/-! ## Helper lemmas for the task-processing loop -/

/-- The head of a list with a guaranteed last element. -/
theorem get?_zero_append_singleton {α : Type} (l : List α) (x : α) :
    (l ++ [x]).get? 0 = some (l.headD x) := by
  cases l <;> rfl

/-- Running `_process_tasks` on `publish`/`finalize`: if every yielded task
up to a failing one succeeds and the failing task raises `e`, the loop stops
at the failing task with the exception. -/
theorem processTasksGo_phase_raised
    (resOf : PublishTaskB → Except PyExc Unit) (gen : TaskGen) (e : PyExc)
    (bad : PublishTaskB) (hbad : resOf bad = .error e) :
    ∀ (oks : List PublishTaskB) (pre : List PublishTaskB) (fuel : Nat),
      oks.length < fuel →
      (∀ t ∈ oks, resOf t = .ok ()) →
      (∀ i, i < oks.length →
        gen (List.replicate (pre.length + 1 + i) SentValue.pynone)
          = (oks ++ [bad]).get? (i + 1)) →
      processTasksGo gen (phaseCb resOf) fuel () pre
          (List.replicate pre.length SentValue.pynone) (oks.headD bad)
        = .raised e ⟨pre ++ oks ++ [bad],
            List.replicate (pre.length + oks.length) SentValue.pynone⟩ := by
  intro oks
  induction oks with
  | nil =>
    intro pre fuel hfuel _ _
    match fuel, hfuel with
    | fuel + 1, _ =>
      simp only [List.headD_nil, processTasksGo, phaseCb, hbad, Except.map]
      simp
  | cons t oks ih =>
    intro pre fuel hfuel hok hy
    match fuel, hfuel with
    | fuel + 1, hfuel =>
      have hokt : resOf t = .ok () := hok t (List.mem_cons_self _ _)
      have hy0 : gen (List.replicate (pre.length + 1) SentValue.pynone)
          = some (oks.headD bad) := by
        have h1 := hy 0 (by simp)
        have h2 : pre.length + 1 + 0 = pre.length + 1 := by omega
        rw [h2] at h1
        rw [h1]
        have h3 : ((t :: oks) ++ [bad]).get? (0 + 1) = (oks ++ [bad]).get? 0 := by
          simp
        rw [h3, get?_zero_append_singleton]
      have hrec := ih (pre ++ [t]) fuel (by simpa using hfuel)
        (fun u hu => hok u (List.mem_cons_of_mem _ hu))
        (by
          intro i hi
          have h2 := hy (i + 1) (by simpa using Nat.succ_lt_succ hi)
          have harg : (pre ++ [t]).length + 1 + i = pre.length + 1 + (i + 1) := by
            simp
            omega
          have hget2 : ((t :: oks) ++ [bad]).get? (i + 1 + 1)
              = (oks ++ [bad]).get? (i + 1) := by
            simp
          rw [harg, h2, hget2])
      have hlen : (pre ++ [t]).length = pre.length + 1 := by simp
      rw [hlen] at hrec
      have harith : pre.length + 1 + oks.length = pre.length + (oks.length + 1) := by
        omega
      have hlist : pre ++ [t] ++ oks ++ [bad] = pre ++ t :: (oks ++ [bad]) := by
        simp
      rw [harith, hlist] at hrec
      have hrepl : List.replicate pre.length SentValue.pynone ++ [SentValue.pynone]
          = List.replicate (pre.length + 1) SentValue.pynone :=
        (List.replicate_succ' pre.length SentValue.pynone).symm
      simp only [List.headD_cons, processTasksGo, phaseCb, hokt, Except.map, hrepl,
        hy0, hrec, List.cons_append, List.append_assoc, List.length_cons]

/-! ## C1 -/

/-- C1: during `PublishManager.publish`, the first exception raised by a
published task aborts the run: the callback is invoked on exactly the yielded
tasks up to and including the raising one, the exception propagates to the
caller, and the post-phase hook `post_publish` is never called (`postArgs`
is empty in the `raised` outcome); `finalize` and `post_finalize` behave the
same way. -/
theorem C1_publish_finalize_abort_on_first_exception
    {τ : Type} (tree : τ) (gen : TaskGen) (fuel : Nat)
    (oks : List PublishTaskB) (bad : PublishTaskB) (e : PyExc)
    (hy : ∀ i, i ≤ oks.length →
      gen (List.replicate i SentValue.pynone) = (oks ++ [bad]).get? i)
    (hfuel : oks.length < fuel) :
    ((∀ t ∈ oks, t.pres = .ok ()) → bad.pres = .error e →
      publishRun tree gen fuel
        = .raised e [] ⟨oks ++ [bad], List.replicate oks.length SentValue.pynone⟩)
    ∧ ((∀ t ∈ oks, t.fres = .ok ()) → bad.fres = .error e →
      finalizeRun tree gen fuel
        = .raised e [] ⟨oks ++ [bad], List.replicate oks.length SentValue.pynone⟩) := by
  have main : ∀ (resOf : PublishTaskB → Except PyExc Unit),
      (∀ t ∈ oks, resOf t = .ok ()) → resOf bad = .error e →
      execPhaseRun resOf tree gen fuel
        = .raised e [] ⟨oks ++ [bad], List.replicate oks.length SentValue.pynone⟩ := by
    intro resOf hok hbad
    have h0 : gen [] = some (oks.headD bad) := by
      have h1 := hy 0 (Nat.zero_le _)
      rw [get?_zero_append_singleton] at h1
      simpa using h1
    have hgo := processTasksGo_phase_raised resOf gen e bad hbad oks [] fuel hfuel hok
      (by
        intro i hi
        have h2 := hy (i + 1) (Nat.succ_le_of_lt hi)
        have harg : List.length ([] : List PublishTaskB) + 1 + i = i + 1 := by
          simp
          omega
        rw [harg, h2])
    simp only [List.length_nil, List.replicate_zero, List.nil_append,
      Nat.zero_add] at hgo
    simp only [execPhaseRun, processTasks, h0, hgo]
  exact ⟨main (fun t => t.pres), main (fun t => t.fres)⟩

/-- Witness for C1 at a concrete generator of three tasks whose second
publish/finalize raises: the third task is never invoked, the exception
surfaces, and no post-phase call is recorded. -/
theorem C1_witness :
    publishRun () (listGen
        [⟨1, .ok true, .ok (), .ok ()⟩, ⟨2, .ok true, .error "B", .error "B"⟩,
         ⟨3, .ok true, .ok (), .ok ()⟩]) 3
      = .raised "B" [] ⟨[⟨1, .ok true, .ok (), .ok ()⟩,
          ⟨2, .ok true, .error "B", .error "B"⟩], [SentValue.pynone]⟩
    ∧ finalizeRun () (listGen
        [⟨1, .ok true, .ok (), .ok ()⟩, ⟨2, .ok true, .error "B", .error "B"⟩,
         ⟨3, .ok true, .ok (), .ok ()⟩]) 3
      = .raised "B" [] ⟨[⟨1, .ok true, .ok (), .ok ()⟩,
          ⟨2, .ok true, .error "B", .error "B"⟩], [SentValue.pynone]⟩ := by
  have h := C1_publish_finalize_abort_on_first_exception
    (τ := Unit) () (listGen
      [⟨1, .ok true, .ok (), .ok ()⟩, ⟨2, .ok true, .error "B", .error "B"⟩,
       ⟨3, .ok true, .ok (), .ok ()⟩]) 3
    [⟨1, .ok true, .ok (), .ok ()⟩] ⟨2, .ok true, .error "B", .error "B"⟩ "B"
    (by
      intro i hi
      have hi2 : i ≤ 1 := by simpa using hi
      interval_cases i <;> rfl)
    (by simp)
  exact ⟨h.1 (by decide) rfl, h.2 (by decide) rfl⟩

/-- The validate callback always returns, whatever the task does: exceptions
from `task.validate()` are caught inside `task_cb`. -/
theorem validateCb_ok (failed : List (PublishTaskB × Option PyExc))
    (t : PublishTaskB) :
    validateCb failed t = .ok (sentOf t, failed ++ failedOf [t]) := by
  cases htv : t.vres with
  | error e2 => simp [validateCb, sentOf, failedOf, failEntry, htv]
  | ok b => cases b <;> simp [validateCb, sentOf, failedOf, failEntry, htv]

/-- The validate loop never lets an exception out. -/
theorem processTasksGo_val_no_raise (gen : TaskGen) :
    ∀ (fuel : Nat) (failed : List (PublishTaskB × Option PyExc))
      (invoked : List PublishTaskB) (sent : List SentValue) (t : PublishTaskB)
      (e : PyExc) (log : RunLog),
      processTasksGo gen validateCb fuel failed invoked sent t ≠ .raised e log := by
  intro fuel
  induction fuel with
  | zero =>
    intro failed invoked sent t e log h
    simp [processTasksGo] at h
  | succ fl ih =>
    intro failed invoked sent t e log h
    simp only [processTasksGo, validateCb_ok] at h
    rcases hg : gen (sent ++ [sentOf t]) with _ | t2
    · rw [hg] at h
      simp at h
    · rw [hg] at h
      exact ih _ _ _ _ _ _ h

/-- The validate loop attempts every yielded task and accumulates exactly the
failing ones, in order. -/
theorem processTasksGo_valSpec (gen : TaskGen) :
    ∀ (rest : List PublishTaskB) (t : PublishTaskB) (pre : List PublishTaskB)
      (failed : List (PublishTaskB × Option PyExc)) (fuel : Nat),
      rest.length < fuel →
      (∀ i, i < rest.length →
        gen ((pre ++ t :: rest.take i).map sentOf) = rest.get? i) →
      gen ((pre ++ t :: rest).map sentOf) = none →
      processTasksGo gen validateCb fuel failed pre (pre.map sentOf) t
        = .ok (failed ++ failedOf (t :: rest))
            ⟨pre ++ t :: rest, (pre ++ t :: rest).map sentOf⟩ := by
  intro rest
  induction rest with
  | nil =>
    intro t pre failed fuel hfuel _ hend
    match fuel, hfuel with
    | fuel + 1, _ =>
      have hg : gen (pre.map sentOf ++ [sentOf t]) = none := by
        have hm : (pre ++ t :: ([] : List PublishTaskB)).map sentOf
            = pre.map sentOf ++ [sentOf t] := by simp
        rw [← hm]
        exact hend
      simp only [processTasksGo, validateCb_ok, hg]
      have hfl : failedOf (t :: ([] : List PublishTaskB)) = failedOf [t] := rfl
      rw [hfl]
      simp
  | cons t2 rest ih =>
    intro t pre failed fuel hfuel hy hend
    match fuel, hfuel with
    | fuel + 1, hfuel =>
      have hg0 : gen (pre.map sentOf ++ [sentOf t]) = some t2 := by
        have h1 := hy 0 (by simp)
        have h2 : (pre ++ t :: (t2 :: rest).take 0).map sentOf
            = pre.map sentOf ++ [sentOf t] := by simp
        rw [h2] at h1
        simpa using h1
      have hrec := ih t2 (pre ++ [t]) (failed ++ failedOf [t]) fuel
        (by simpa using hfuel)
        (by
          intro i hi
          have h2 := hy (i + 1) (by simpa using Nat.succ_lt_succ hi)
          have h3 : pre ++ t :: (t2 :: rest).take (i + 1)
              = (pre ++ [t]) ++ t2 :: rest.take i := by
            simp
          rw [h3] at h2
          simpa using h2)
        (by
          have h3 : pre ++ t :: (t2 :: rest) = (pre ++ [t]) ++ t2 :: rest := by
            simp
          rw [h3] at hend
          exact hend)
      have hmap : (pre ++ [t]).map sentOf = pre.map sentOf ++ [sentOf t] := by simp
      rw [hmap] at hrec
      have hfl : (failed ++ failedOf [t]) ++ failedOf (t2 :: rest)
          = failed ++ failedOf (t :: t2 :: rest) := by
        cases hfe : failEntry t <;>
          simp [failedOf, List.filterMap_cons, hfe]
      have hlists : (pre ++ [t]) ++ t2 :: rest = pre ++ t :: t2 :: rest := by simp
      rw [hfl, hlists] at hrec
      simp only [processTasksGo, validateCb_ok, hg0, hrec]

/-- The loop sends back exactly the per-task value computed by the callback:
whenever the run completes, the sent list is the image of the invoked list
under the per-task value function. -/
theorem processTasksGo_sent_shape (gen : TaskGen) {σ : Type}
    (cb : σ → PublishTaskB → Except PyExc (SentValue × σ))
    (f : PublishTaskB → SentValue)
    (hcb : ∀ s t rv s2, cb s t = .ok (rv, s2) → rv = f t) :
    ∀ (fuel : Nat) (s : σ) (pre : List PublishTaskB) (t : PublishTaskB)
      (s2 : σ) (log : RunLog),
      processTasksGo gen cb fuel s pre (pre.map f) t = .ok s2 log →
      log.sent = log.invoked.map f := by
  intro fuel
  induction fuel with
  | zero =>
    intro s pre t s2 log h
    simp [processTasksGo] at h
  | succ fl ih =>
    intro s pre t s2 log h
    rcases hc : cb s t with e | rv2
    · simp only [processTasksGo, hc] at h
      simp at h
    · obtain ⟨rv, s3⟩ := rv2
      have hrv : rv = f t := hcb _ _ _ _ hc
      subst hrv
      simp only [processTasksGo, hc] at h
      rcases hg : gen (pre.map f ++ [f t]) with _ | t2
      · rw [hg] at h
        simp only [RunOutcome.ok.injEq] at h
        rw [← h.2]
        simp
      · rw [hg] at h
        have hm : pre.map f ++ [f t] = (pre ++ [t]).map f := by simp
        rw [hm] at h
        exact ih s3 (pre ++ [t]) t2 s2 log h

/-- `_process_tasks` sends back exactly the callback values, phase-level
version. -/
theorem processTasks_sent_shape (gen : TaskGen) {σ : Type}
    (cb : σ → PublishTaskB → Except PyExc (SentValue × σ))
    (f : PublishTaskB → SentValue)
    (hcb : ∀ s t rv s2, cb s t = .ok (rv, s2) → rv = f t)
    (fuel : Nat) (s0 : σ) (s2 : σ) (log : RunLog)
    (h : processTasks gen cb fuel s0 = .ok s2 log) :
    log.sent = log.invoked.map f := by
  unfold processTasks at h
  rcases hg : gen [] with _ | t
  · rw [hg] at h
    simp only [RunOutcome.ok.injEq] at h
    rw [← h.2]
    simp
  · rw [hg] at h
    have hm : ([] : List SentValue) = ([] : List PublishTaskB).map f := by simp
    rw [hm] at h
    exact processTasksGo_sent_shape gen cb f hcb fuel s0 [] t s2 log h

/-! ## C2 -/

/-- C2: `PublishManager.validate` never lets a task exception escape (first
conjunct); for every generator that yields the tasks `ts` in order
(irrespective of the outcomes sent back to it) and then stops, validate
attempts every one of them, returns exactly the failing ones — paired with
the raised exception, or `None` for a plain falsy return — in order, and
calls the post-phase `post_validate` hook exactly once with the whole tree
(second conjunct). -/
theorem C2_validate_attempts_all_collects_failures
    {τ : Type} (tree : τ) (gen : TaskGen) (fuel : Nat) (ts : List PublishTaskB) :
    (∀ e, validateRun tree gen fuel ≠ some (.error e))
    ∧ ((∀ i, i < ts.length → gen ((ts.take i).map sentOf) = ts.get? i) →
        gen (ts.map sentOf) = none →
        ts.length ≤ fuel →
        validateRun tree gen fuel
          = some (.ok ⟨failedOf ts, [tree], ⟨ts, ts.map sentOf⟩⟩)) := by
  constructor
  · intro e h
    unfold validateRun at h
    rcases hp : processTasks gen validateCb fuel [] with ⟨s, log⟩ | ⟨e2, log⟩ | log
    · rw [hp] at h
      simp at h
    · exfalso
      unfold processTasks at hp
      rcases hg : gen [] with _ | t
      · rw [hg] at hp
        simp at hp
      · rw [hg] at hp
        exact processTasksGo_val_no_raise gen fuel [] [] [] t e2 log hp
    · rw [hp] at h
      simp at h
  · intro hy hend hfuel
    cases ts with
    | nil =>
      have h0 : gen [] = none := by simpa using hend
      unfold validateRun processTasks
      rw [h0]
      simp [failedOf]
    | cons t rest =>
      have h0 : gen [] = some t := by
        have h1 := hy 0 (by simp)
        simpa using h1
      have hgo := processTasksGo_valSpec gen rest t [] [] fuel
        (by simpa using hfuel)
        (by
          intro i hi
          have h2 := hy (i + 1) (by simpa using Nat.succ_lt_succ hi)
          simpa using h2)
        (by simpa using hend)
      simp only [List.map_nil, List.nil_append] at hgo
      unfold validateRun processTasks
      simp only [h0, hgo]

/-- Witness for C2 on three concrete tasks — the first validates, the second
raises, the third returns a falsy status: all three are attempted, the
failure list holds the second (with its exception) and the third (with
`None`), and `post_validate` receives the tree once. -/
theorem C2_witness :
    validateRun () (listGen
        [⟨1, .ok true, .ok (), .ok ()⟩, ⟨2, .error "E2", .ok (), .ok ()⟩,
         ⟨3, .ok false, .ok (), .ok ()⟩]) 4
      = some (.ok ⟨[(⟨2, .error "E2", .ok (), .ok ()⟩, some "E2"),
            (⟨3, .ok false, .ok (), .ok ()⟩, none)], [()],
          ⟨[⟨1, .ok true, .ok (), .ok ()⟩, ⟨2, .error "E2", .ok (), .ok ()⟩,
            ⟨3, .ok false, .ok (), .ok ()⟩],
           [.pair true none, .pair false (some "E2"), .pair false none]⟩⟩) := by
  have h := (C2_validate_attempts_all_collects_failures (τ := Unit) () (listGen
      [⟨1, .ok true, .ok (), .ok ()⟩, ⟨2, .error "E2", .ok (), .ok ()⟩,
       ⟨3, .ok false, .ok (), .ok ()⟩]) 4
      [⟨1, .ok true, .ok (), .ok ()⟩, ⟨2, .error "E2", .ok (), .ok ()⟩,
       ⟨3, .ok false, .ok (), .ok ()⟩]).2
    (by
      intro i hi
      have hi2 : i ≤ 2 := by simpa using Nat.lt_succ_iff.mp (by simpa using hi)
      interval_cases i <;> rfl)
    rfl (by simp)
  simpa using h

/-! ## C7 -/

/-- C7 counterexample: in a `publish` run the value the manager sends back
into the generator after a processed task is the Python `None` returned by
`task.publish()`, not a `(success, error)` pair — refuting the claim that
all three phases send a `(success, error)` pair. -/
theorem C7_counterexample :
    publishRun () (listGen [⟨1, .ok true, .ok (), .ok ()⟩]) 2
      = .ok [()] ⟨[⟨1, .ok true, .ok (), .ok ()⟩], [SentValue.pynone]⟩
    ∧ SentValue.pynone.isPair = false :=
  ⟨rfl, rfl⟩

/-- C7 (amended): after each processed task the manager sends the return
value of the task callback back into the generator before requesting the
next task — for `validate` that is the `(is_valid, error)` pair, while for
`publish` and `finalize` it is the `None` returned by the task method. -/
theorem C7_amended_send_values
    {τ : Type} (tree : τ) (gen : TaskGen) (fuel : Nat) :
    (∀ r : ValidateResult τ, validateRun tree gen fuel = some (.ok r) →
      r.log.sent = r.log.invoked.map sentOf)
    ∧ (∀ (pa : List τ) (log : RunLog), publishRun tree gen fuel = .ok pa log →
      log.sent = log.invoked.map (fun _ => SentValue.pynone))
    ∧ (∀ (pa : List τ) (log : RunLog), finalizeRun tree gen fuel = .ok pa log →
      log.sent = log.invoked.map (fun _ => SentValue.pynone)) := by
  have hval : ∀ s t rv s2, validateCb s t = .ok (rv, s2) → rv = sentOf t := by
    intro s t rv s2 h
    rw [validateCb_ok] at h
    simp only [Except.ok.injEq, Prod.mk.injEq] at h
    exact h.1.symm
  have hphase : ∀ (resOf : PublishTaskB → Except PyExc Unit) s t rv s2,
      phaseCb resOf s t = .ok (rv, s2) → rv = SentValue.pynone := by
    intro resOf s t rv s2 h
    unfold phaseCb at h
    rcases hr : resOf t with e | u <;> rw [hr] at h <;> simp [Except.map] at h
    exact h.symm
  refine ⟨?_, ?_, ?_⟩
  · intro r h
    unfold validateRun at h
    rcases hp : processTasks gen validateCb fuel [] with ⟨s, log⟩ | ⟨e2, log⟩ | log <;>
      rw [hp] at h <;> simp at h
    rw [← h]
    exact processTasks_sent_shape gen validateCb sentOf hval fuel [] s log hp
  · intro pa log h
    unfold publishRun execPhaseRun at h
    rcases hp : processTasks gen (phaseCb (fun t => t.pres)) fuel () with
      ⟨s, log2⟩ | ⟨e2, log2⟩ | log2 <;> rw [hp] at h <;> simp at h
    rw [← h.2]
    exact processTasks_sent_shape gen _ (fun _ => SentValue.pynone)
      (hphase (fun t => t.pres)) fuel () s log2 hp
  · intro pa log h
    unfold finalizeRun execPhaseRun at h
    rcases hp : processTasks gen (phaseCb (fun t => t.fres)) fuel () with
      ⟨s, log2⟩ | ⟨e2, log2⟩ | log2 <;> rw [hp] at h <;> simp at h
    rw [← h.2]
    exact processTasks_sent_shape gen _ (fun _ => SentValue.pynone)
      (hphase (fun t => t.fres)) fuel () s log2 hp

/-- Witness for C7 (amended) on a one-task validate run: the sent list is the
image of the invoked task under the `(is_valid, error)` pair function. -/
theorem C7_amended_witness :
    ([SentValue.pair false none] : List SentValue)
      = ([⟨1, .ok false, .ok (), .ok ()⟩] : List PublishTaskB).map sentOf := by
  have h := (C7_amended_send_values (τ := Unit) ()
      (listGen [⟨1, .ok false, .ok (), .ok ()⟩]) 2).1
    ⟨[(⟨1, .ok false, .ok (), .ok ()⟩, none)], [()],
      ⟨[⟨1, .ok false, .ok (), .ok ()⟩], [SentValue.pair false none]⟩⟩ rfl
  simpa using h

/-! ## Helper lemmas for the tree model -/

/-- A successful lookup names a binding of the list. -/
theorem lookup_mem {β : Type} (k : String) (b : β) :
    ∀ l : List (String × β), l.lookup k = some b → (k, b) ∈ l := by
  intro l
  induction l with
  | nil => intro h; simp at h
  | cons q rest ih =>
    obtain ⟨k1, v1⟩ := q
    intro h
    by_cases hq : k = k1
    · subst hq
      simp [List.lookup_cons] at h
      simp [h]
    · have hne : (k == k1) = false := beq_false_of_ne hq
      simp only [List.lookup_cons, hne] at h
      exact List.mem_cons_of_mem _ (ih h)

/-- Overwriting an existing key makes it look up to the new value. -/
theorem lookup_map_overwrite (k v : String) :
    ∀ ps : Props, (ps.lookup k).isSome = true →
      (ps.map (fun p => if p.1 = k then (k, v) else p)).lookup k = some v := by
  intro ps
  induction ps with
  | nil => intro h; simp at h
  | cons q rest ih =>
    obtain ⟨k1, v1⟩ := q
    intro h
    by_cases hq : k1 = k
    · simp [List.lookup_cons, hq]
    · have hne : (k == k1) = false := beq_false_of_ne (Ne.symm hq)
      simp only [List.lookup_cons, hne, List.map_cons, if_neg hq] at *
      exact ih h

/-- Appending a fresh binding makes the key look up to its value. -/
theorem lookup_append_fresh (k v : String) :
    ∀ ps : Props, ps.lookup k = none → (ps ++ [(k, v)]).lookup k = some v := by
  intro ps
  induction ps with
  | nil => intro _; simp [List.lookup_cons]
  | cons q rest ih =>
    obtain ⟨k1, v1⟩ := q
    intro h
    by_cases hq : k = k1
    · subst hq
      simp [List.lookup_cons] at h
    · have hne : (k == k1) = false := beq_false_of_ne hq
      simp only [List.lookup_cons, hne] at h
      simp only [List.cons_append, List.lookup_cons, hne]
      exact ih h

/-- Looking up a key just written by Python dict assignment. -/
theorem propsPut_lookup (k v : String) (ps : Props) :
    (propsPut ps k v).lookup k = some v := by
  unfold propsPut
  by_cases h : (ps.lookup k).isSome
  · rw [if_pos h]
    exact lookup_map_overwrite k v ps h
  · rw [if_neg h]
    refine lookup_append_fresh k v ps ?_
    rcases hl : ps.lookup k with _ | x
    · rfl
    · exact absurd (by simp [hl]) h

/-- `_path_already_collected` answers true exactly when some persistent item
carries the collected-file-path property with that path. -/
theorem pathAlreadyCollected_iff (t : PublishTreeS) (p : String) :
    pathAlreadyCollected t p = true ↔
      ∃ i ∈ t.items, i.persistent = true ∧
        i.properties.lookup PROPERTY_KEY_COLLECTED_FILE_PATH = some p := by
  simp only [pathAlreadyCollected, persistentItems, List.any_eq_true,
    List.mem_filter, beq_iff_eq]
  constructor
  · rintro ⟨i, ⟨hi, hper⟩, hlk⟩
    exact ⟨i, hi, hper, hlk⟩
  · rintro ⟨i, hi, hper, hlk⟩
    exact ⟨i, ⟨hi, hper⟩, hlk⟩

/-- Shape of a collector run: it appends freshly created items — identities
at and above the old fresh-identity source, pairwise distinct, all created
non-persistent with no tasks. -/
theorem applySpecsGo_shape :
    ∀ (specs : List ItemSpec) (t : PublishTreeS) (created : List Nat),
      ∃ cs : List PublishItemS,
        (applySpecsGo t created specs).items = t.items ++ cs
        ∧ (applySpecsGo t created specs).nextId = t.nextId + specs.length
        ∧ (∀ i ∈ cs, (t.nextId ≤ i.iid ∧ i.iid < t.nextId + specs.length)
            ∧ i.persistent = false ∧ i.tasks = [])
        ∧ (cs.map (fun i => i.iid)).Nodup := by
  intro specs
  induction specs with
  | nil =>
    intro t created
    exact ⟨[], by simp [applySpecsGo], by simp [applySpecsGo], by simp, by simp⟩
  | cons sp ss ih =>
    intro t created
    obtain ⟨cs, h1, h2, h3, h4⟩ := ih
      ⟨t.items ++ [⟨t.nextId,
          (match sp.parentRef with | none => 0 | some j => created.getD j 0),
          false, sp.props, []⟩], t.nextId + 1⟩
      (created ++ [t.nextId])
    refine ⟨⟨t.nextId,
        (match sp.parentRef with | none => 0 | some j => created.getD j 0),
        false, sp.props, []⟩ :: cs, ?_, ?_, ?_, ?_⟩
    · simp only [applySpecsGo]
      rw [h1]
      simp
    · simp only [applySpecsGo]
      rw [h2]
      simp only [List.length_cons]
      omega
    · intro i hi
      rcases List.mem_cons.mp hi with hi | hi
      · subst hi
        refine ⟨⟨Nat.le_refl _, ?_⟩, rfl, rfl⟩
        simp only [List.length_cons]
        omega
      · obtain ⟨⟨hlo, hhi⟩, hper, htk⟩ := h3 i hi
        simp only at hlo hhi
        refine ⟨⟨by omega, by simp only [List.length_cons]; omega⟩, hper, htk⟩
    · simp only [List.map_cons, List.nodup_cons]
      constructor
      · intro hmem
        simp only [List.mem_map] at hmem
        obtain ⟨c, hc, hcid⟩ := hmem
        obtain ⟨⟨hlo, _⟩, _, _⟩ := h3 c hc
        simp only at hlo
        omega
      · exact h4

/-- Re-diffing a tree against itself detects nothing new. -/
theorem collectDiffIds_self (l : List PublishItemS) : collectDiffIds l l = [] := by
  unfold collectDiffIds
  have h : l.filter (fun i => decide (i ∉ l)) = [] :=
    List.filter_eq_nil_iff.mpr (by intro a ha; simp [ha])
  rw [h]
  rfl

/-- Diffing against a snapshot extended by genuinely new items yields exactly
their identities. -/
theorem collectDiffIds_append (before cs : List PublishItemS)
    (hdisj : ∀ c ∈ cs, c ∉ before) :
    collectDiffIds before (before ++ cs) = cs.map (fun i => i.iid) := by
  unfold collectDiffIds
  rw [List.filter_append]
  have h1 : before.filter (fun i => decide (i ∉ before)) = [] :=
    List.filter_eq_nil_iff.mpr (by intro a ha; simp [ha])
  have h2 : cs.filter (fun i => decide (i ∉ before)) = cs :=
    List.filter_eq_self.mpr (by intro a ha; simpa using hdisj a ha)
  rw [h1, h2]
  rfl

/-- Marking no items leaves the tree untouched. -/
theorem markTree_nil (f : PublishItemS → PublishItemS) (t : PublishTreeS) :
    markTree f [] t = t := by
  obtain ⟨items, nid⟩ := t
  unfold markTree
  simp

/-- Skipping an already-collected path: the tree is untouched, no items are
returned and the skip is logged. -/
theorem collectFilesOne_skip (collector : String → List ItemSpec)
    (attach : Nat → List Nat) (t : PublishTreeS) (p : String)
    (h : pathAlreadyCollected t p = true) :
    collectFilesOne collector attach t p = (t, [], [CollectEvent.skipPath p]) := by
  simp only [collectFilesOne, h, if_true, collectDiffIds_self, markTree_nil]
  simp

/-- Characterization of the items returned by one `collect_files` path: they
sit in the resulting tree, carry the collected path in their properties, and
a top-level one is persistent; on a well-formed tree the persistent flag
holds exactly for the top-level ones (fresh items start non-persistent). -/
theorem collectFilesOne_new_items (collector : String → List ItemSpec)
    (attach : Nat → List Nat) (t : PublishTreeS) (p : String) :
    ∀ x ∈ (collectFilesOne collector attach t p).2.1,
      x ∈ (collectFilesOne collector attach t p).1.items
      ∧ x.properties.lookup PROPERTY_KEY_COLLECTED_FILE_PATH = some p
      ∧ (x.parentId = 0 → x.persistent = true)
      ∧ (TreeWF t → (x.persistent = true ↔ x.parentId = 0)) := by
  intro x hx
  have hmem : x ∈ (collectFilesOne collector attach t p).1.items :=
    List.mem_of_mem_filter hx
  refine ⟨hmem, ?_⟩
  by_cases hskip : pathAlreadyCollected t p = true
  · rw [collectFilesOne_skip collector attach t p hskip] at hx
    simp at hx
  · have hs : pathAlreadyCollected t p = false := by
      simpa using hskip
    simp only [collectFilesOne, hs, Bool.false_eq_true, if_false,
      List.mem_filter, markTree, decide_eq_true_eq] at hx
    obtain ⟨hx1, hx2⟩ := hx
    simp only [List.mem_map] at hx1
    obtain ⟨y, hy, hxy⟩ := hx1
    by_cases hyid : y.iid ∈ collectDiffIds t.items (applySpecs t (collector p)).items
    · rw [if_pos hyid] at hxy
      subst hxy
      have hprop : (attachItem attach (stampItem p y)).properties.lookup
          PROPERTY_KEY_COLLECTED_FILE_PATH = some p := by
        simp only [attachItem, stampItem]
        exact propsPut_lookup _ _ _
      refine ⟨hprop, ?_, ?_⟩
      · intro hpz
        have hpy : y.parentId = 0 := hpz
        simp only [attachItem, stampItem, hpy, if_true]
      · intro hwf
        obtain ⟨cs, hitems, hnext, hshape, hnd⟩ :=
          applySpecsGo_shape (collector p) t []
        have hyin : y ∈ cs := by
          rw [show applySpecs t (collector p) = applySpecsGo t [] (collector p)
            from rfl, hitems] at hy hyid
          have hdisj : ∀ c ∈ cs, c ∉ t.items := by
            intro c hc hcin
            obtain ⟨⟨hlo, _⟩, _, _⟩ := hshape c hc
            exact absurd (hwf.2.1 c hcin).2 (by omega)
          rw [collectDiffIds_append t.items cs hdisj] at hyid
          simp only [List.mem_map] at hyid
          obtain ⟨c, hc, hcid⟩ := hyid
          rcases List.mem_append.mp hy with hyt | hyc
          · obtain ⟨⟨hlo, _⟩, _, _⟩ := hshape c hc
            have hbound := (hwf.2.1 y hyt).2
            omega
          · exact hyc
        obtain ⟨_, hper, _⟩ := hshape y hyin
        by_cases hp0 : y.parentId = 0
        · simp only [attachItem, stampItem, hp0, if_true]
        · simp only [attachItem, stampItem, if_neg hp0, hper]
          constructor
          · intro hfalse
            simp at hfalse
          · intro hpar
            exact absurd hpar hp0
    · rw [if_neg hyid] at hxy
      subst hxy
      exact absurd hx2 hyid

/-- One `collect_files` path preserves tree well-formedness. -/
theorem collectFilesOne_wf (collector : String → List ItemSpec)
    (attach : Nat → List Nat) (t : PublishTreeS) (p : String) (hwf : TreeWF t) :
    TreeWF (collectFilesOne collector attach t p).1 := by
  by_cases hskip : pathAlreadyCollected t p = true
  · rw [collectFilesOne_skip collector attach t p hskip]
    exact hwf
  · have hs : pathAlreadyCollected t p = false := by simpa using hskip
    simp only [collectFilesOne, hs, Bool.false_eq_true, if_false, markTree]
    obtain ⟨cs, hitems, hnext, hshape, hnd⟩ := applySpecsGo_shape (collector p) t []
    have heq : applySpecs t (collector p) = applySpecsGo t [] (collector p) := rfl
    rw [heq, hitems, hnext]
    set ids := collectDiffIds t.items (t.items ++ cs) with hids
    have hiid : ∀ i : PublishItemS,
        ((if i.iid ∈ ids then attachItem attach (stampItem p i) else i)).iid
          = i.iid := by
      intro i
      by_cases hh : i.iid ∈ ids <;> simp [hh, attachItem, stampItem]
    refine ⟨?_, ?_, ?_⟩
    · show 0 < t.nextId + (collector p).length
      have := hwf.1
      omega
    · show ∀ i ∈ (t.items ++ cs).map
          (fun i => if i.iid ∈ ids then attachItem attach (stampItem p i) else i),
        0 < i.iid ∧ i.iid < t.nextId + (collector p).length
      intro i hi
      simp only [List.mem_map] at hi
      obtain ⟨y, hy, hiy⟩ := hi
      have hyid : i.iid = y.iid := by rw [← hiy]; exact hiid y
      have hyper : 0 < y.iid ∧ y.iid < t.nextId + (collector p).length := by
        rcases List.mem_append.mp hy with hyt | hyc
        · obtain ⟨h1, h2⟩ := hwf.2.1 y hyt
          exact ⟨h1, by omega⟩
        · obtain ⟨⟨hlo, hhi⟩, _, _⟩ := hshape y hyc
          exact ⟨by have := hwf.1; omega, hhi⟩
      rw [hyid]
      exact hyper
    · show (((t.items ++ cs).map
          (fun i => if i.iid ∈ ids then attachItem attach (stampItem p i) else i)).map
            (fun i => i.iid)).Nodup
      have hmapeq : (List.map (fun i => i.iid)
          ((t.items ++ cs).map
            (fun i => if i.iid ∈ ids then attachItem attach (stampItem p i) else i)))
          = (t.items ++ cs).map (fun i => i.iid) := by
        rw [List.map_map]
        apply List.map_congr_left
        intro i _
        exact hiid i
      rw [hmapeq, List.map_append, List.nodup_append]
      refine ⟨hwf.2.2, hnd, ?_⟩
      intro a ha hb
      simp only [List.mem_map] at ha hb
      obtain ⟨y1, hy1, he1⟩ := ha
      obtain ⟨y2, hy2, he2⟩ := hb
      obtain ⟨⟨hlo, _⟩, _, _⟩ := hshape y2 hy2
      have := (hwf.2.1 y1 hy1).2
      omega

/-! ## C3 -/

/-- C3 counterexample: with a collector that yields no items for the path,
the first call creates nothing, so the second call for the same path is not
"logged as a skip" — it runs the collection again (the collect log line, not
the skip one), refuting the claim as stated for every path. -/
theorem C3_counterexample :
    (collectFilesOne (fun _ => []) (fun _ => []) ⟨[], 1⟩ "p").1 = ⟨[], 1⟩
    ∧ (collectFilesOne (fun _ => []) (fun _ => []) ⟨[], 1⟩ "p").2.2
        = [CollectEvent.collectPath "p"]
    ∧ (collectFilesOne (fun _ => []) (fun _ => [])
        ((collectFilesOne (fun _ => []) (fun _ => []) ⟨[], 1⟩ "p").1) "p").2.2
        = [CollectEvent.collectPath "p"]
    ∧ CollectEvent.collectPath "p" ≠ CollectEvent.skipPath "p" := by
  refine ⟨rfl, rfl, rfl, ?_⟩
  intro h
  exact CollectEvent.noConfusion h

/-- C3 (amended): for every path whose first collection actually created a
top-level item — the situation the spec calls an already-collected path — a
second `collect_files` call for the same path is a logged skip: the
collector is not re-run, the tree is unchanged, and the returned item list
is empty. -/
theorem C3_amended_second_call_skips (collector : String → List ItemSpec)
    (attach : Nat → List Nat) (t : PublishTreeS) (p : String)
    (hnew : ∃ i ∈ (collectFilesOne collector attach t p).2.1, i.parentId = 0) :
    collectFilesOne collector attach (collectFilesOne collector attach t p).1 p
      = ((collectFilesOne collector attach t p).1, [],
          [CollectEvent.skipPath p]) := by
  obtain ⟨i, hi, hpar⟩ := hnew
  obtain ⟨hmem, hlook, hpers, _⟩ := collectFilesOne_new_items collector attach t p i hi
  refine collectFilesOne_skip collector attach _ p ?_
  exact (pathAlreadyCollected_iff _ p).mpr ⟨i, hmem, hpers hpar, hlook⟩

/-- Witness for C3 (amended): a collector creating one top-level item for the
path; the second call is the skip. -/
theorem C3_witness :
    collectFilesOne (fun _ => [⟨none, []⟩]) (fun _ => [])
        ((collectFilesOne (fun _ => [⟨none, []⟩]) (fun _ => []) ⟨[], 1⟩ "pX").1) "pX"
      = ((collectFilesOne (fun _ => [⟨none, []⟩]) (fun _ => []) ⟨[], 1⟩ "pX").1, [],
          [CollectEvent.skipPath "pX"]) := by
  refine C3_amended_second_call_skips (fun _ => [⟨none, []⟩]) (fun _ => [])
    ⟨[], 1⟩ "pX" ?_
  refine ⟨⟨1, 0, true, [(PROPERTY_KEY_COLLECTED_FILE_PATH, "pX")], []⟩, ?_, rfl⟩
  decide

/-! ## Helper lemmas for tree clearing -/

/-- The surviving-identity fold only grows. -/
theorem keptIds_fold_mono :
    ∀ (items : List PublishItemS) (acc : List Nat) (x : Nat), x ∈ acc →
      x ∈ items.foldl
        (fun acc i =>
          if (i.parentId == 0 && i.persistent) || acc.contains i.parentId then
            acc ++ [i.iid]
          else acc) acc := by
  intro items
  induction items with
  | nil => intro acc x hx; simpa using hx
  | cons j rest ih =>
    intro acc x hx
    simp only [List.foldl_cons]
    by_cases hc : ((j.parentId == 0 && j.persistent) || acc.contains j.parentId) = true
    · rw [if_pos hc]
      exact ih _ x (List.mem_append_left _ hx)
    · rw [if_neg hc]
      exact ih _ x hx

/-- An identity carried by no processed item is never added by the fold. -/
theorem keptIds_fold_not_mem :
    ∀ (items : List PublishItemS) (acc : List Nat) (x : Nat), x ∉ acc →
      (∀ j ∈ items, j.iid ≠ x) →
      x ∉ items.foldl
        (fun acc i =>
          if (i.parentId == 0 && i.persistent) || acc.contains i.parentId then
            acc ++ [i.iid]
          else acc) acc := by
  intro items
  induction items with
  | nil => intro acc x hx _; simpa using hx
  | cons j rest ih =>
    intro acc x hx hids
    simp only [List.foldl_cons]
    by_cases hc : ((j.parentId == 0 && j.persistent) || acc.contains j.parentId) = true
    · rw [if_pos hc]
      refine ih _ x ?_ (fun k hk => hids k (List.mem_cons_of_mem _ hk))
      intro hmem
      rcases List.mem_append.mp hmem with h | h
      · exact hx h
      · exact hids j (List.mem_cons_self _ _) (List.mem_singleton.mp h).symm
    · rw [if_neg hc]
      exact ih _ x hx (fun k hk => hids k (List.mem_cons_of_mem _ hk))

/-- A persistent top-level item always survives `clear`. -/
theorem keptIds_mem_of_persistent_top :
    ∀ (items : List PublishItemS) (acc : List Nat) (i : PublishItemS),
      i ∈ items → i.parentId = 0 → i.persistent = true →
      i.iid ∈ items.foldl
        (fun acc i =>
          if (i.parentId == 0 && i.persistent) || acc.contains i.parentId then
            acc ++ [i.iid]
          else acc) acc := by
  intro items
  induction items with
  | nil => intro acc i hi; simp at hi
  | cons j rest ih =>
    intro acc i hi hpar hper
    simp only [List.foldl_cons]
    rcases List.mem_cons.mp hi with hij | hirest
    · subst hij
      have hc : ((i.parentId == 0 && i.persistent) || acc.contains i.parentId) = true := by
        simp [hpar, hper]
      rw [if_pos hc]
      exact keptIds_fold_mono rest _ i.iid (List.mem_append_right _ (by simp))
    · by_cases hc : ((j.parentId == 0 && j.persistent) || acc.contains j.parentId) = true
      · rw [if_pos hc]; exact ih _ i hirest hpar hper
      · rw [if_neg hc]; exact ih _ i hirest hpar hper

/-- A non-persistent top-level item of a well-formed tree never survives
`clear`: its parent is the root (identity `0`, which no surviving item
carries), and it is not itself persistent. -/
theorem keptIds_not_mem_of_nonpersistent_top :
    ∀ (items : List PublishItemS) (acc : List Nat) (i : PublishItemS),
      (∀ j ∈ items, 0 < j.iid) → ((items.map (fun i => i.iid)).Nodup) →
      i ∈ items → i.parentId = 0 → i.persistent = false →
      i.iid ∉ acc → (0 : Nat) ∉ acc →
      i.iid ∉ items.foldl
        (fun acc i =>
          if (i.parentId == 0 && i.persistent) || acc.contains i.parentId then
            acc ++ [i.iid]
          else acc) acc := by
  intro items
  induction items with
  | nil => intro acc i _ _ hi; simp at hi
  | cons j rest ih =>
    intro acc i hpos hnd hi hpar hper hacc h0acc
    have hndj : j.iid ∉ rest.map (fun i => i.iid) := (List.nodup_cons.mp hnd).1
    have hndr : (rest.map (fun i => i.iid)).Nodup := (List.nodup_cons.mp hnd).2
    simp only [List.foldl_cons]
    rcases List.mem_cons.mp hi with hij | hirest
    · subst hij
      have hcontains : acc.contains i.parentId = false := by
        have h2 : i.parentId ∉ acc := by rw [hpar]; exact h0acc
        simpa using h2
      have hc : ((i.parentId == 0 && i.persistent) || acc.contains i.parentId) = false := by
        rw [hper, hcontains]
        simp
      simp only [hc, Bool.false_eq_true, if_false]
      refine keptIds_fold_not_mem rest acc i.iid hacc ?_
      intro k hk he
      exact hndj (he ▸ List.mem_map_of_mem (fun i => i.iid) hk)
    · have hine : i.iid ≠ j.iid := by
        intro he
        exact hndj (he ▸ List.mem_map_of_mem (fun i => i.iid) hirest)
      by_cases hc : ((j.parentId == 0 && j.persistent) || acc.contains j.parentId) = true
      · rw [if_pos hc]
        refine ih _ i (fun k hk => hpos k (List.mem_cons_of_mem _ hk)) hndr hirest
          hpar hper ?_ ?_
        · intro hmem
          rcases List.mem_append.mp hmem with h | h
          · exact hacc h
          · exact hine (by simpa using h)
        · intro hmem
          rcases List.mem_append.mp hmem with h | h
          · exact h0acc h
          · have := hpos j (List.mem_cons_self _ _)
            simp at h
            omega
      · rw [if_neg hc]
        exact ih _ i (fun k hk => hpos k (List.mem_cons_of_mem _ hk)) hndr hirest
          hpar hper hacc h0acc

/-! ## C4 -/

/-- C4 counterexample: a non-persistent item sitting under a persistent
top-level item is present before `collect_session` and still present after
it — `clear(clear_persistent=False)` removes exactly the non-persistent
top-level subtrees (spec §3), not every item with a false persistent flag,
so "every non-persistent item present before the call has been removed" is
false as stated. -/
theorem C4_counterexample :
    (⟨2, 1, false, [], []⟩ : PublishItemS)
        ∈ (collectSession [] (fun _ => [])
            ⟨[⟨1, 0, true, [], []⟩, ⟨2, 1, false, [], []⟩], 3⟩).1.items
    ∧ (⟨2, 1, false, [], []⟩ : PublishItemS).persistent = false := by
  exact ⟨by decide, rfl⟩

/-- C4 (amended): on a well-formed tree, `collect_session` (1) keeps every
persistent top-level item in the surviving set, (2) retains every surviving
item verbatim — same identity, same tasks, same properties, untouched by
`_attach_plugins` — and (3) removes every non-persistent top-level item
(and no later item reuses its identity). -/
theorem C4_amended_session_frame (sessSpecs : List ItemSpec)
    (attach : Nat → List Nat) (t : PublishTreeS) (hwf : TreeWF t) :
    (∀ i ∈ t.items, i.parentId = 0 → i.persistent = true →
      i.iid ∈ keptIds t.items)
    ∧ (∀ i ∈ t.items, i.iid ∈ keptIds t.items →
        i ∈ (collectSession sessSpecs attach t).1.items)
    ∧ (∀ i ∈ t.items, i.parentId = 0 → i.persistent = false →
        ∀ j ∈ (collectSession sessSpecs attach t).1.items, j.iid ≠ i.iid) := by
  obtain ⟨cs, hitems, hnext, hshape, hnd⟩ :=
    applySpecsGo_shape sessSpecs (clearNonPersistent t) []
  have ht0items : (clearNonPersistent t).items
      = t.items.filter (fun i => decide (i.iid ∈ keptIds t.items)) := rfl
  have ht0next : (clearNonPersistent t).nextId = t.nextId := rfl
  have ht0sub : ∀ y ∈ (clearNonPersistent t).items, y ∈ t.items := by
    intro y hy
    rw [ht0items] at hy
    exact List.mem_of_mem_filter hy
  have hdisj : ∀ c ∈ cs, c ∉ (clearNonPersistent t).items := by
    intro c hc hcin
    obtain ⟨⟨hlo, _⟩, _, _⟩ := hshape c hc
    rw [ht0next] at hlo
    exact absurd (hwf.2.1 c (ht0sub c hcin)).2 (by omega)
  have hids : collectDiffIds (clearNonPersistent t).items
      (applySpecs (clearNonPersistent t) sessSpecs).items
      = cs.map (fun i => i.iid) := by
    rw [show applySpecs (clearNonPersistent t) sessSpecs
      = applySpecsGo (clearNonPersistent t) [] sessSpecs from rfl, hitems]
    exact collectDiffIds_append _ cs hdisj
  refine ⟨?_, ?_, ?_⟩
  · intro i hi hpar hper
    exact keptIds_mem_of_persistent_top t.items [] i hi hpar hper
  · intro i hi hkept
    have hi0 : i ∈ (clearNonPersistent t).items := by
      rw [ht0items]
      exact List.mem_filter.mpr ⟨hi, by simpa using hkept⟩
    have hnotnew : i.iid ∉ collectDiffIds (clearNonPersistent t).items
        (applySpecs (clearNonPersistent t) sessSpecs).items := by
      rw [hids]
      intro hmem
      simp only [List.mem_map] at hmem
      obtain ⟨c, hc, hcid⟩ := hmem
      obtain ⟨⟨hlo, _⟩, _, _⟩ := hshape c hc
      rw [ht0next] at hlo
      have := (hwf.2.1 i hi).2
      omega
    simp only [collectSession, markTree]
    simp only [List.mem_map]
    refine ⟨i, ?_, ?_⟩
    · rw [show applySpecs (clearNonPersistent t) sessSpecs
        = applySpecsGo (clearNonPersistent t) [] sessSpecs from rfl, hitems]
      exact List.mem_append_left _ hi0
    · rw [if_neg hnotnew]
  · intro i hi hpar hper j hj
    simp only [collectSession, markTree, List.mem_map] at hj
    obtain ⟨y, hy, hjy⟩ := hj
    have hjid : j.iid = y.iid := by
      rw [← hjy]
      by_cases hh : y.iid ∈ collectDiffIds (clearNonPersistent t).items
          (applySpecs (clearNonPersistent t) sessSpecs).items <;>
        simp [hh, attachItem]
    rw [show applySpecs (clearNonPersistent t) sessSpecs
      = applySpecsGo (clearNonPersistent t) [] sessSpecs from rfl, hitems] at hy
    rcases List.mem_append.mp hy with hy0 | hycs
    · rw [ht0items] at hy0
      have hymem := List.mem_of_mem_filter hy0
      have hykept : y.iid ∈ keptIds t.items := by
        have := (List.mem_filter.mp hy0).2
        simpa using this
      intro he
      have hyi : y = i :=
        List.inj_on_of_nodup_map hwf.2.2 hymem hi (by rw [← hjid, he])
      subst hyi
      refine keptIds_not_mem_of_nonpersistent_top t.items [] y
        (fun k hk => (hwf.2.1 k hk).1) hwf.2.2 hymem hpar hper
        (by simp) (by simp) hykept
    · obtain ⟨⟨hlo, _⟩, _, _⟩ := hshape y hycs
      rw [ht0next] at hlo
      have := (hwf.2.1 i hi).2
      omega

/-- Witness for C4 (amended): a tree with one persistent top-level item
(with properties and a task), its child, and one non-persistent top-level
item; after `collect_session` the persistent item survives verbatim and no
item carries the identity of the removed non-persistent one. -/
theorem C4_witness :
    (⟨1, 0, true, [("k", "v")], [5]⟩ : PublishItemS)
        ∈ (collectSession [⟨none, []⟩] (fun _ => [9])
            ⟨[⟨1, 0, true, [("k", "v")], [5]⟩, ⟨2, 1, false, [], []⟩,
              ⟨3, 0, false, [], []⟩], 4⟩).1.items
    ∧ ((collectSession [⟨none, []⟩] (fun _ => [9])
          ⟨[⟨1, 0, true, [("k", "v")], [5]⟩, ⟨2, 1, false, [], []⟩,
            ⟨3, 0, false, [], []⟩], 4⟩).1.items.all
        (fun j => j.iid != 3)) = true := by
  have h := C4_amended_session_frame [⟨none, []⟩] (fun _ => [9])
    ⟨[⟨1, 0, true, [("k", "v")], [5]⟩, ⟨2, 1, false, [], []⟩,
      ⟨3, 0, false, [], []⟩], 4⟩ ⟨by decide, by decide, by decide⟩
  constructor
  · exact h.2.1 _ (by decide) (h.1 _ (by decide) rfl rfl)
  · rw [List.all_eq_true]
    intro j hj
    have := h.2.2 ⟨3, 0, false, [], []⟩ (by decide) rfl rfl j hj
    simpa using this

/-! ## C10 -/

/-- C10: every item created by a `collect_files` call carries the
collected-file-path property naming the path that produced it, and is
persistent exactly when its parent is the root item; and path
de-duplication (`_path_already_collected`) consults exactly the persistent
items carrying that property. -/
theorem C10_collect_files_stamping (collector : String → List ItemSpec)
    (attach : Nat → List Nat) (t : PublishTreeS) (paths : List String)
    (hwf : TreeWF t) :
    (∀ x ∈ (collectFiles collector attach t paths).2.1,
        (∃ p ∈ paths,
          x.properties.lookup PROPERTY_KEY_COLLECTED_FILE_PATH = some p)
        ∧ (x.persistent = true ↔ x.parentId = 0))
    ∧ (∀ (t2 : PublishTreeS) (q : String),
        pathAlreadyCollected t2 q = true ↔
          ∃ i ∈ t2.items, i.persistent = true ∧
            i.properties.lookup PROPERTY_KEY_COLLECTED_FILE_PATH = some q) := by
  constructor
  · have main : ∀ (ps : List String) (t0 : PublishTreeS)
        (accI : List PublishItemS) (accE : List CollectEvent), TreeWF t0 →
        ∀ x ∈ (ps.foldl (fun acc p =>
            let r := collectFilesOne collector attach acc.1 p
            (r.1, acc.2.1 ++ r.2.1, acc.2.2 ++ r.2.2)) (t0, accI, accE)).2.1,
          x ∈ accI ∨ ∃ p ∈ ps,
            x.properties.lookup PROPERTY_KEY_COLLECTED_FILE_PATH = some p
            ∧ (x.persistent = true ↔ x.parentId = 0) := by
      intro ps
      induction ps with
      | nil =>
        intro t0 accI accE _ x hx
        exact Or.inl (by simpa using hx)
      | cons p ps ih =>
        intro t0 accI accE hwf0 x hx
        simp only [List.foldl_cons] at hx
        have hstep := ih (collectFilesOne collector attach t0 p).1
          (accI ++ (collectFilesOne collector attach t0 p).2.1)
          (accE ++ (collectFilesOne collector attach t0 p).2.2)
          (collectFilesOne_wf collector attach t0 p hwf0) x hx
        rcases hstep with hmem | ⟨q, hq, hprop⟩
        · rcases List.mem_append.mp hmem with h | h
          · exact Or.inl h
          · obtain ⟨_, hlook, _, hiff⟩ :=
              collectFilesOne_new_items collector attach t0 p x h
            exact Or.inr ⟨p, List.mem_cons_self _ _, hlook, hiff hwf0⟩
        · exact Or.inr ⟨q, List.mem_cons_of_mem _ hq, hprop⟩
    intro x hx
    rcases main paths t [] [] hwf x hx with hmem | hgood
    · simp at hmem
    · obtain ⟨p, hp, h1, h2⟩ := hgood
      exact ⟨⟨p, hp, h1⟩, h2⟩
  · intro t2 q
    exact pathAlreadyCollected_iff t2 q

/-- Witness for C10: a collector creating a top-level item and a nested
child for the path; the nested child is stamped with the path and is not
persistent (its parent is not the root). -/
theorem C10_witness :
    ((⟨2, 1, false, [(PROPERTY_KEY_COLLECTED_FILE_PATH, "pa")], []⟩ :
          PublishItemS)).properties.lookup PROPERTY_KEY_COLLECTED_FILE_PATH
        = some "pa"
    ∧ (((⟨2, 1, false, [(PROPERTY_KEY_COLLECTED_FILE_PATH, "pa")], []⟩ :
          PublishItemS)).persistent = true
        ↔ ((⟨2, 1, false, [(PROPERTY_KEY_COLLECTED_FILE_PATH, "pa")], []⟩ :
          PublishItemS)).parentId = 0) := by
  have h := (C10_collect_files_stamping (fun _ => [⟨none, []⟩, ⟨some 0, []⟩])
    (fun _ => []) ⟨[], 1⟩ ["pa"] ⟨by decide, by decide, by decide⟩).1
    ⟨2, 1, false, [(PROPERTY_KEY_COLLECTED_FILE_PATH, "pa")], []⟩ (by decide)
  obtain ⟨⟨p, hp, hlook⟩, hiff⟩ := h
  have hpa := List.mem_singleton.mp hp
  subst hpa
  exact ⟨hlook, hiff⟩

/-! ## Helper lemmas for the settings heap -/

/-- Cells after building a settings dict: the old heap extended by the raw
values in order. -/
theorem buildSettingsDict_cells :
    ∀ (raw : List (String × String)) (h : SHeap),
      (buildSettingsDict h raw).1.cells = h.cells ++ raw.map (fun p => p.2) := by
  intro raw
  induction raw with
  | nil => intro h; simp [buildSettingsDict]
  | cons q rest ih =>
    intro h
    obtain ⟨n, v⟩ := q
    simp only [buildSettingsDict, SHeap.alloc]
    rw [ih]
    simp

/-- Every address handed out by `build_settings_dict` is fresh. -/
theorem buildSettingsDict_addrs :
    ∀ (raw : List (String × String)) (h : SHeap),
      ∀ q ∈ (buildSettingsDict h raw).2,
        h.size ≤ q.2 ∧ q.2 < h.size + raw.length := by
  intro raw
  induction raw with
  | nil => intro h q hq; simp [buildSettingsDict] at hq
  | cons p rest ih =>
    intro h q hq
    obtain ⟨n, v⟩ := p
    simp only [buildSettingsDict, SHeap.alloc] at hq
    rcases List.mem_cons.mp hq with hq | hq
    · subst hq
      refine ⟨Nat.le_refl _, ?_⟩
      show h.size < h.size + (rest.length + 1)
      omega
    · have hb := ih ⟨h.cells ++ [v]⟩ q hq
      simp only [SHeap.size, List.length_append, List.length_cons,
        List.length_nil] at hb ⊢
      omega

/-- Number of entries of a built settings dict. -/
theorem buildSettingsDict_length :
    ∀ (raw : List (String × String)) (h : SHeap),
      (buildSettingsDict h raw).2.length = raw.length := by
  intro raw
  induction raw with
  | nil => intro h; rfl
  | cons p rest ih =>
    intro h
    obtain ⟨n, v⟩ := p
    simp only [buildSettingsDict, SHeap.alloc, List.length_cons]
    rw [ih]

/-- Heap growth of `build_settings_dict`. -/
theorem buildSettingsDict_size (raw : List (String × String)) (h : SHeap) :
    (buildSettingsDict h raw).1.size = h.size + raw.length := by
  show (buildSettingsDict h raw).1.cells.length = h.cells.length + raw.length
  rw [buildSettingsDict_cells]
  simp

/-- Cells after a deep copy: the old heap extended by one fresh cell per
entry. -/
theorem deepcopyDict_cells :
    ∀ (d : SettingsDict) (h : SHeap),
      ∃ vs : List String, (deepcopyDict h d).1.cells = h.cells ++ vs
        ∧ vs.length = d.length := by
  intro d
  induction d with
  | nil => intro h; exact ⟨[], by simp [deepcopyDict], rfl⟩
  | cons q rest ih =>
    intro h
    obtain ⟨n, a⟩ := q
    obtain ⟨vs, hvs, hlen⟩ := ih ⟨h.cells ++ [(h.read a).getD ""]⟩
    refine ⟨(h.read a).getD "" :: vs, ?_, by simp [hlen]⟩
    simp only [deepcopyDict, SHeap.alloc]
    rw [hvs]
    simp

/-- Every address handed out by a deep copy is fresh. -/
theorem deepcopyDict_addrs :
    ∀ (d : SettingsDict) (h : SHeap),
      ∀ q ∈ (deepcopyDict h d).2, h.size ≤ q.2 ∧ q.2 < h.size + d.length := by
  intro d
  induction d with
  | nil => intro h q hq; simp [deepcopyDict] at hq
  | cons p rest ih =>
    intro h q hq
    obtain ⟨n, a⟩ := p
    simp only [deepcopyDict, SHeap.alloc] at hq
    rcases List.mem_cons.mp hq with hq | hq
    · subst hq
      refine ⟨Nat.le_refl _, ?_⟩
      show h.size < h.size + (rest.length + 1)
      omega
    · have hb := ih ⟨h.cells ++ [(h.read a).getD ""]⟩ q hq
      simp only [SHeap.size, List.length_append, List.length_cons,
        List.length_nil] at hb ⊢
      omega

/-- A deep copy has one entry per entry of the source dict. -/
theorem deepcopyDict_length :
    ∀ (d : SettingsDict) (h : SHeap), (deepcopyDict h d).2.length = d.length := by
  intro d
  induction d with
  | nil => intro h; rfl
  | cons p rest ih =>
    intro h
    obtain ⟨n, a⟩ := p
    simp only [deepcopyDict, SHeap.alloc, List.length_cons]
    rw [ih]

/-- Heap growth of a deep copy. -/
theorem deepcopyDict_size (d : SettingsDict) (h : SHeap) :
    (deepcopyDict h d).1.size = h.size + d.length := by
  obtain ⟨vs, hvs, hlen⟩ := deepcopyDict_cells d h
  show (deepcopyDict h d).1.cells.length = h.cells.length + d.length
  rw [hvs]
  simp [hlen]

/-- Writing one `Setting` object leaves every other object unchanged. -/
theorem sheap_read_write_ne (h : SHeap) (a b : Nat) (v : String) (hne : b ≠ a) :
    (h.write a v).read b = h.read b := by
  unfold SHeap.write SHeap.read
  exact List.get?_set_ne _ _ (fun he => hne he.symm)

/-- `init_task_settings` on a falsy cache entry: build, cache a deep copy,
then deep-copy the built dict for the task. -/
theorem initTaskSettings_build (raw : List (String × String)) (k : CacheKey)
    (h : SHeap) (c : SettingsCacheS) (hc : (cacheGet c k).getD [] = []) :
    initTaskSettings raw k h c
      = ((deepcopyDict (cacheAdd (buildSettingsDict h raw).1 c k
            (buildSettingsDict h raw).2).1 (buildSettingsDict h raw).2).1,
         (cacheAdd (buildSettingsDict h raw).1 c k (buildSettingsDict h raw).2).2,
         (deepcopyDict (cacheAdd (buildSettingsDict h raw).1 c k
            (buildSettingsDict h raw).2).1 (buildSettingsDict h raw).2).2) := by
  unfold initTaskSettings
  rw [hc]
  rfl

/-- `init_task_settings` on a cached non-empty entry: deep-copy the cached
baseline for the task, touching neither cache nor baseline. -/
theorem initTaskSettings_cached (raw : List (String × String)) (k : CacheKey)
    (h : SHeap) (c : SettingsCacheS) (d : SettingsDict)
    (hc : (cacheGet c k).getD [] = d) (hne : d.isEmpty = false) :
    initTaskSettings raw k h c = ((deepcopyDict h d).1, c, (deepcopyDict h d).2) := by
  unfold initTaskSettings
  rw [hc]
  simp only [hne, Bool.false_eq_true, if_false]

/-! ## C5 -/

/-- C5: resolving task settings twice for the same plugin and context hands
out `Setting` objects at pairwise disjoint heap addresses for the first
task, the second task, and the cached baseline — `SettingsCache.add` stores
a deep copy and `init_task_settings` deep-copies the cached settings before
handing them to the task — so mutating any `Setting` of one task changes
nothing readable through the other task or through the cache. -/
theorem C5_task_settings_isolation (raw : List (String × String)) (k : CacheKey)
    (h0 : SHeap) :
    (∀ a1 ∈ addrsOf (twoTaskSettings raw k h0).2.1,
      ∀ a2 ∈ addrsOf (twoTaskSettings raw k h0).2.2.1, a1 ≠ a2)
    ∧ (∀ a1 ∈ addrsOf (twoTaskSettings raw k h0).2.1,
      ∀ ac ∈ addrsOf (twoTaskSettings raw k h0).2.2.2, a1 ≠ ac)
    ∧ (∀ a2 ∈ addrsOf (twoTaskSettings raw k h0).2.2.1,
      ∀ ac ∈ addrsOf (twoTaskSettings raw k h0).2.2.2, a2 ≠ ac)
    ∧ (∀ a b : Nat, a ≠ b → ∀ v : String,
      ((twoTaskSettings raw k h0).1.write a v).read b
        = (twoTaskSettings raw k h0).1.read b) := by
  have hwr : ∀ a b : Nat, a ≠ b → ∀ v : String,
      ((twoTaskSettings raw k h0).1.write a v).read b
        = (twoTaskSettings raw k h0).1.read b := by
    intro a b hne v
    exact sheap_read_write_ne _ a b v (fun he => hne he.symm)
  have hlk : ∀ (x : SettingsDict) (c : List (CacheKey × SettingsDict)),
      List.lookup k ((k, x) :: c) = some x := by
    intro x c
    simp [List.lookup_cons]
  have hr1 := initTaskSettings_build raw k h0 ⟨[]⟩ rfl
  by_cases hraw : raw = []
  · -- no settings at all: both task dicts and the baseline are empty
    subst hraw
    have hd1 : (twoTaskSettings [] k h0).2.1 = [] := rfl
    have hc2 : (cacheGet (initTaskSettings [] k h0 ⟨[]⟩).2.1 k).getD [] = [] := by
      rw [hr1]
      show (List.lookup k [(k, [])]).getD [] = []
      rw [hlk]
      rfl
    have hr2 := initTaskSettings_build [] k (initTaskSettings [] k h0 ⟨[]⟩).1
      (initTaskSettings [] k h0 ⟨[]⟩).2.1 hc2
    have hd2 : (twoTaskSettings [] k h0).2.2.1 = [] := by
      show (initTaskSettings [] k (initTaskSettings [] k h0 ⟨[]⟩).1
        (initTaskSettings [] k h0 ⟨[]⟩).2.1).2.2 = []
      rw [hr2]
      rfl
    have hdc : (twoTaskSettings [] k h0).2.2.2 = [] := by
      show (cacheGet (initTaskSettings [] k (initTaskSettings [] k h0 ⟨[]⟩).1
        (initTaskSettings [] k h0 ⟨[]⟩).2.1).2.1 k).getD [] = []
      rw [hr2, hr1]
      show (List.lookup k ((k, []) :: [(k, [])])).getD [] = []
      rw [hlk]
      rfl
    refine ⟨?_, ?_, ?_, hwr⟩
    · intro a1 ha1
      rw [hd1] at ha1
      simp [addrsOf] at ha1
    · intro a1 ha1
      rw [hd1] at ha1
      simp [addrsOf] at ha1
    · intro a2 ha2
      rw [hd2] at ha2
      simp [addrsOf] at ha2
  · -- at least one setting: compute the three address ranges
    obtain ⟨B1, B2, hB⟩ : ∃ B1 B2, buildSettingsDict h0 raw = (B1, B2) :=
      ⟨_, _, rfl⟩
    obtain ⟨C1, C2, hC⟩ : ∃ C1 C2, deepcopyDict B1 B2 = (C1, C2) := ⟨_, _, rfl⟩
    obtain ⟨D1, D2, hD⟩ : ∃ D1 D2, deepcopyDict C1 B2 = (D1, D2) := ⟨_, _, rfl⟩
    obtain ⟨E1, E2, hE⟩ : ∃ E1 E2, deepcopyDict D1 C2 = (E1, E2) := ⟨_, _, rfl⟩
    have hcaddB : cacheAdd B1 (⟨[]⟩ : SettingsCacheS) k B2
        = (C1, ⟨[(k, C2)]⟩) := by
      unfold cacheAdd
      rw [hC]
    have hr1e : initTaskSettings raw k h0 ⟨[]⟩ = (D1, ⟨[(k, C2)]⟩, D2) := by
      rw [hr1, hB]
      simp only
      rw [hcaddB]
      simp only
      rw [hD]
    have hB2len : B2.length = raw.length := by
      have := buildSettingsDict_length raw h0
      rw [hB] at this
      exact this
    have hC2len : C2.length = raw.length := by
      have := deepcopyDict_length B2 B1
      rw [hC] at this
      simp only at this
      rw [this, hB2len]
    have hC2ne : C2.isEmpty = false := by
      rcases hc2e : C2 with _ | ⟨q, rest⟩
      · rw [hc2e] at hC2len
        exact absurd (List.length_eq_zero.mp hC2len.symm) hraw
      · rfl
    have hcach : (cacheGet (⟨[(k, C2)]⟩ : SettingsCacheS) k).getD [] = C2 := by
      show (List.lookup k [(k, C2)]).getD [] = C2
      rw [hlk]
      rfl
    have hr2e : initTaskSettings raw k D1 ⟨[(k, C2)]⟩
        = (E1, ⟨[(k, C2)]⟩, E2) := by
      rw [initTaskSettings_cached raw k D1 ⟨[(k, C2)]⟩ C2 hcach hC2ne, hE]
    have hTT : twoTaskSettings raw k h0 = (E1, D2, E2, C2) := by
      show ((initTaskSettings raw k (initTaskSettings raw k h0 ⟨[]⟩).1
              (initTaskSettings raw k h0 ⟨[]⟩).2.1).1,
            (initTaskSettings raw k h0 ⟨[]⟩).2.2,
            (initTaskSettings raw k (initTaskSettings raw k h0 ⟨[]⟩).1
              (initTaskSettings raw k h0 ⟨[]⟩).2.1).2.2,
            (cacheGet (initTaskSettings raw k (initTaskSettings raw k h0 ⟨[]⟩).1
              (initTaskSettings raw k h0 ⟨[]⟩).2.1).2.1 k).getD [])
          = (E1, D2, E2, C2)
      rw [hr1e]
      simp only
      rw [hr2e]
      simp only
      rw [hcach]
    -- address ranges
    have hB1size : B1.size = h0.size + raw.length := by
      have := buildSettingsDict_size raw h0
      rw [hB] at this
      exact this
    have hC1size : C1.size = h0.size + 2 * raw.length := by
      have := deepcopyDict_size B2 B1
      rw [hC] at this
      simp only at this
      rw [this, hB1size, hB2len]
      ring
    have hD1size : D1.size = h0.size + 3 * raw.length := by
      have := deepcopyDict_size B2 C1
      rw [hD] at this
      simp only at this
      rw [this, hC1size, hB2len]
      ring
    have haD2 : ∀ a ∈ addrsOf D2,
        h0.size + 2 * raw.length ≤ a ∧ a < h0.size + 3 * raw.length := by
      intro a ha
      simp only [addrsOf, List.mem_map] at ha
      obtain ⟨q, hq, rfl⟩ := ha
      have := deepcopyDict_addrs B2 C1 q (by rw [hD]; exact hq)
      rw [hC1size, hB2len] at this
      omega
    have haC2 : ∀ a ∈ addrsOf C2,
        h0.size + raw.length ≤ a ∧ a < h0.size + 2 * raw.length := by
      intro a ha
      simp only [addrsOf, List.mem_map] at ha
      obtain ⟨q, hq, rfl⟩ := ha
      have := deepcopyDict_addrs B2 B1 q (by rw [hC]; exact hq)
      rw [hB1size, hB2len] at this
      omega
    have haE2 : ∀ a ∈ addrsOf E2,
        h0.size + 3 * raw.length ≤ a ∧ a < h0.size + 4 * raw.length := by
      intro a ha
      simp only [addrsOf, List.mem_map] at ha
      obtain ⟨q, hq, rfl⟩ := ha
      have := deepcopyDict_addrs C2 D1 q (by rw [hE]; exact hq)
      rw [hD1size, hC2len] at this
      omega
    refine ⟨?_, ?_, ?_, hwr⟩
    · intro a1 ha1 a2 ha2
      rw [hTT] at ha1 ha2
      have h1 := haD2 a1 ha1
      have h2 := haE2 a2 ha2
      omega
    · intro a1 ha1 ac hac
      rw [hTT] at ha1 hac
      have h1 := haD2 a1 ha1
      have h2 := haC2 ac hac
      omega
    · intro a2 ha2 ac hac
      rw [hTT] at ha2 hac
      have h1 := haE2 a2 ha2
      have h2 := haC2 ac hac
      omega

/-- Witness for C5: one setting, concrete plugin/context key, empty heap —
the first task owns address 2, the second task address 3, the cache address
1; writing through the first task leaves the second unchanged. -/
theorem C5_witness :
    ((2 : Nat) ≠ 3)
    ∧ (((twoTaskSettings [("opt", "v")] ("pluginA", "ctxA") ⟨[]⟩).1.write 2 "X").read 3
        = (twoTaskSettings [("opt", "v")] ("pluginA", "ctxA") ⟨[]⟩).1.read 3) := by
  have h := C5_task_settings_isolation [("opt", "v")] ("pluginA", "ctxA") ⟨[]⟩
  have hne : (2 : Nat) ≠ 3 := h.1 2 (by decide) 3 (by decide)
  exact ⟨hne, h.2.2.2 2 3 hne "X"⟩

/-! ## C6 -/

/-- C6: the plugin-instance error funnel — a raising `accept` hook is caught,
logged and turned into `{"accepted": False}`; raising `process_file` /
`process_current_session` hooks are caught and logged, returning `None`;
raising `validate` / `publish` / `finalize` hooks are logged and the same
exception is re-raised to the caller. -/
theorem C6_run_wrapper_error_policy (e : PyExc) (α : Type) :
    runAccept (.error e) = ([("accepted", false)], [.errorLogged e])
    ∧ runValidate true (.error e) = (.error e, [.errorLogged e])
    ∧ runPublish (.error e) = (.error e, [.errorLogged e])
    ∧ runFinalize (.error e) = (.error e, [.errorLogged e])
    ∧ @runProcessFile α (.error e) = (none, [.errorLogged e])
    ∧ @runProcessCurrentSession α (.error e) = (none, [.errorLogged e]) :=
  ⟨rfl, rfl, rfl, rfl, rfl, rfl⟩

/-! ## C9 -/

/-- C9: evaluation of `PublishFilesPlugin.undo` at the failing input.  When
deleting the published files raises (here a permission error from
`delete_files`), `undo` propagates the exception to its caller — the body
only wraps the tracking-database deletes in try/except, as the second
conjunct shows: a raising `shotgun.delete` is caught and logged. -/
theorem C9_undo_propagates_delete_files_error :
    undoRun (fun _ => .error "PermissionError") (fun _ => .ok ()) none
        (some "/publish/asset.v001.ma") [] = .error "PermissionError"
    ∧ undoRun (fun _ => .ok ()) (fun _ => .error "SgFault") none
        (some "/publish/asset.v001.ma") [⟨"PublishedFile", 42⟩]
        = .ok ([.infoLogged "Cleaning up copied files...",
                .errorLogged "Failed to delete PublishedFile Entity"], true) :=
  ⟨rfl, rfl⟩

/-! ## Helper lemmas for composite plugin settings -/

/-- A key looks up successfully exactly when it is one of the keys. -/
theorem lookup_isSome_iff {β : Type} :
    ∀ (l : List (String × β)) (a : String),
      (l.lookup a).isSome = true ↔ a ∈ l.map (fun p => p.1) := by
  intro l
  induction l with
  | nil => intro a; simp
  | cons q rest ih =>
    intro a
    obtain ⟨k1, b⟩ := q
    by_cases hk : a = k1
    · subst hk
      simp [List.lookup_cons]
    · have hne : (a == k1) = false := beq_false_of_ne hk
      simp only [List.lookup_cons, hne, List.map_cons, List.mem_cons]
      rw [ih]
      constructor
      · exact Or.inr
      · rintro (h | h)
        · exact absurd h hk
        · exact h

/-- Python dict comparison is false whenever the key sequences differ. -/
theorem pyBeqKV_false_of_keys_ne :
    ∀ (xs ys : List (String × PyVal)),
      xs.map (fun p => p.1) ≠ ys.map (fun p => p.1) → pyBeqKV xs ys = false := by
  intro xs
  induction xs with
  | nil =>
    intro ys hne
    cases ys with
    | nil => exact absurd rfl hne
    | cons q rest => rfl
  | cons q xs ih =>
    intro ys hne
    cases ys with
    | nil => rfl
    | cons q2 ys =>
      obtain ⟨k, v⟩ := q
      obtain ⟨k2, v2⟩ := q2
      by_cases hk : k = k2
      · subst hk
        have htl : xs.map (fun p => p.1) ≠ ys.map (fun p => p.1) := by
          intro he
          exact hne (by simp [he])
        simp only [pyBeqKV, ih ys htl, Bool.and_false]
      · have hne2 : (k == k2) = false := beq_false_of_ne hk
        simp [pyBeqKV, hne2]

/-- Effectful key-value map: on success the keys are preserved in order and
every produced child comes from the corresponding new sub-value. -/
theorem exceptMapM_kv_spec (g : String → PyVal → Except PyErr PS) :
    ∀ (kvs : List (String × PyVal)) (l : List (String × PS)),
      exceptMapM (fun kv => (g kv.1 kv.2).map (fun c => (kv.1, c))) kvs = .ok l →
      l.map (fun p => p.1) = kvs.map (fun p => p.1)
      ∧ ∀ p ∈ l, ∃ v, (p.1, v) ∈ kvs ∧ g p.1 v = .ok p.2 := by
  intro kvs
  induction kvs with
  | nil =>
    intro l h
    simp only [exceptMapM, Except.ok.injEq] at h
    subst h
    exact ⟨rfl, by simp⟩
  | cons kv rest ih =>
    intro l h
    simp only [exceptMapM] at h
    rcases hg : g kv.1 kv.2 with e | c
    · rw [hg] at h
      simp [Except.map] at h
    · rw [hg] at h
      rcases hrest : exceptMapM
          (fun kv => (g kv.1 kv.2).map (fun c => (kv.1, c))) rest with e | bs
      · rw [hrest] at h
        simp [Except.map] at h
      · rw [hrest] at h
        simp only [Except.map, Except.ok.injEq] at h
        subst h
        obtain ⟨hkeys, hmem⟩ := ih bs hrest
        constructor
        · simp [hkeys]
        · intro p hp
          rcases List.mem_cons.mp hp with hp | hp
          · subst hp
            exact ⟨kv.2, List.mem_cons_self _ _, hg⟩
          · obtain ⟨v, hv, hgv⟩ := hmem p hp
            exact ⟨v, List.mem_cons_of_mem _ hv, hgv⟩

/-! ## C8 -/

/-- C8 counterexample: a strict-schema dict setting (schema declares an
`items` map with key `a`).  Reassigning its value to a dict with the
different key set `a, b` does rebuild the children, but the children follow
the schema item keys — `a` only — so lookups, iteration and length do not
reflect the new keys: `len` is 1, key `b` is absent. -/
theorem C8_counterexample :
    (((createPluginSetting 5 "s" (.vdict [("a", .vint 1)])
        (.mk (some "dict") (some [("a", .mk none none none)]) none)).bind
      (fun s0 => setSettingValue 5 s0
        (.vdict [("a", .vint 1), ("b", .vint 2)]))).map PS.dictKeys = .ok ["a"])
    ∧ (((createPluginSetting 5 "s" (.vdict [("a", .vint 1)])
        (.mk (some "dict") (some [("a", .mk none none none)]) none)).bind
      (fun s0 => setSettingValue 5 s0
        (.vdict [("a", .vint 1), ("b", .vint 2)]))).map
          (fun s => (s.getItem "b").isSome) = .ok false)
    ∧ (((createPluginSetting 5 "s" (.vdict [("a", .vint 1)])
        (.mk (some "dict") (some [("a", .mk none none none)]) none)).bind
      (fun s0 => setSettingValue 5 s0
        (.vdict [("a", .vint 1), ("b", .vint 2)]))).map PS.dictLen = .ok 1)
    ∧ (PyVal.vdict [("a", .vint 1), ("b", .vint 2)]).dictKeys = ["a", "b"]
    ∧ (["a"] : List String) ≠ ["a", "b"] := by
  refine ⟨rfl, rfl, rfl, rfl, ?_⟩
  decide

/-- C8 (amended): for an open-shaped dict setting (no `items` map declared),
reassigning the value to a dict with a different key sequence triggers a
full rebuild of the children: afterwards iteration yields exactly the new
keys in order, `len` matches, a key looks up successfully exactly when it is
one of the new keys, and every child was built from the corresponding entry
of the new value — no child of the old value survives. -/
theorem C8_amended_open_dict_rebuild (fuel : Nat) (name : String)
    (vs : Option SchemaS) (oldkvs newkvs : List (String × PyVal))
    (cs : List (String × PS)) (s2 : PS)
    (hkeys : newkvs.map (fun p => p.1) ≠ oldkvs.map (fun p => p.1))
    (hset : setSettingValue fuel
        (.pdict name (.mk (some "dict") none vs) (.vdict oldkvs) cs)
        (.vdict newkvs) = .ok s2) :
    s2.dictKeys = newkvs.map (fun p => p.1)
    ∧ s2.dictLen = newkvs.length
    ∧ (∀ a : String, (s2.getItem a).isSome = true ↔ a ∈ newkvs.map (fun p => p.1))
    ∧ (∀ p ∈ s2.dictChildren, ∃ v, (p.1, v) ∈ newkvs ∧
        ∃ f2, createPluginSetting f2 (name ++ "." ++ p.1) v (vs.getD emptySchema)
          = .ok p.2) := by
  have hbeq : pyBeq (.vdict newkvs) (.vdict oldkvs) = false :=
    pyBeqKV_false_of_keys_ne newkvs oldkvs hkeys
  simp only [setSettingValue, hbeq, Bool.false_eq_true, if_false] at hset
  match fuel, hset with
  | f + 1, hset =>
    simp only [createPluginSetting, SchemaS.dtype, SchemaS.items,
      SchemaS.values] at hset
    rw [if_neg (by simp)] at hset
    rw [if_pos trivial] at hset
    rcases hm : exceptMapM
        (fun kv => (createPluginSetting f (name ++ "." ++ kv.1) kv.2
          (vs.getD emptySchema)).map (fun c => (kv.1, c))) newkvs with e | cs2
    · rw [hm] at hset
      simp [Except.map] at hset
    · rw [hm] at hset
      simp only [Except.map, Except.ok.injEq] at hset
      obtain ⟨hkeys2, hmem⟩ := exceptMapM_kv_spec
        (fun a v => createPluginSetting f (name ++ "." ++ a) v
          (vs.getD emptySchema)) newkvs cs2 hm
      subst hset
      refine ⟨?_, ?_, ?_, ?_⟩
      · exact hkeys2
      · show cs2.length = newkvs.length
        have := congrArg List.length hkeys2
        simpa using this
      · intro a
        show (cs2.lookup a).isSome = true ↔ a ∈ newkvs.map (fun p => p.1)
        rw [lookup_isSome_iff, hkeys2]
      · intro p hp
        obtain ⟨v, hv, hgv⟩ := hmem p hp
        exact ⟨v, hv, f, hgv⟩

/-- Witness for C8 (amended): an open dict setting reassigned from key `x`
to keys `y, z`; the rebuilt children expose exactly `y, z`. -/
theorem C8_witness :
    (PS.pdict "s" (.mk (some "dict") none none)
        (.vdict [("y", .vint 2), ("z", .vint 3)])
        [("y", PS.plain "s.y" (.mk none none none) (.vint 2)),
         ("z", PS.plain "s.z" (.mk none none none) (.vint 3))]).dictKeys
      = ([("y", PyVal.vint 2), ("z", PyVal.vint 3)] : List (String × PyVal)).map
          (fun p => p.1) := by
  exact (C8_amended_open_dict_rebuild 3 "s" none [("x", .vint 1)]
    [("y", .vint 2), ("z", .vint 3)] [] _
    (by decide) rfl).1

end Publish2
